import Mathlib

/-!
# Verification of the SAMap iterative cross-species manifold alignment engine

Shallow embedding, in Lean 4, of the numeric core of the repository
(`src/samap/mapping.py` and the legacy `src/SAMap.py`), together with
theorems settling the frozen claims about its specification.

Conventions of the embedding:
* machine floats are modelled as exact rationals (`ℚ`) where the source
  computes with values that stay rational, and as reals (`ℝ`) where the
  source applies `sqrt`/`tanh`;
* numpy arrays are Lean lists, sparse matrices are functions `ℕ → ℕ → ℚ`
  (an entry is "stored" iff it is nonzero; the sources call
  `eliminate_zeros()` on every matrix the claims are about);
* fallible dictionary accesses return `Option`; a `none` models a Python
  `KeyError`;
* `np.argsort` is modelled as a stable sort of the index range by
  (value, index); numpy's tie order for `kind='quicksort'` is unspecified,
  and none of the claims depends on the order among tied values;
* the float `NaN` produced by `0/0` in the Pearson kernel is modelled by
  `Option.none` (the source replaces NaN by 0 afterwards, which the model
  mirrors with `Option.getD 0`).
-/

namespace SamapModel

/-! ## Order on indices by value: the model of `np.argsort`

`idxLe X i j` compares positions `i j` of the list `X` by value first and
by index second.  Sorting `range X.length` by this relation models a
stable `np.argsort(X)`. -/

def idxLe (X : List ℚ) (i j : ℕ) : Prop :=
  X.getD i 0 < X.getD j 0 ∨ (X.getD i 0 = X.getD j 0 ∧ i ≤ j)

instance idxLe.decidableRel (X : List ℚ) : DecidableRel (idxLe X) := fun i j =>
  inferInstanceAs (Decidable (X.getD i 0 < X.getD j 0 ∨ (X.getD i 0 = X.getD j 0 ∧ i ≤ j)))

instance idxLe.isTotal (X : List ℚ) : IsTotal ℕ (idxLe X) := by
  constructor
  intro i j
  rcases lt_trichotomy (X.getD i 0) (X.getD j 0) with h | h | h
  · exact Or.inl (Or.inl h)
  · rcases Nat.le_total i j with hij | hij
    · exact Or.inl (Or.inr ⟨h, hij⟩)
    · exact Or.inr (Or.inr ⟨h.symm, hij⟩)
  · exact Or.inr (Or.inl h)

instance idxLe.isTrans (X : List ℚ) : IsTrans ℕ (idxLe X) := by
  constructor
  intro i j k hij hjk
  rcases hij with h1 | ⟨h1, h1'⟩
  · rcases hjk with h2 | ⟨h2, _⟩
    · exact Or.inl (h1.trans h2)
    · exact Or.inl (h2 ▸ h1)
  · rcases hjk with h2 | ⟨h2, h2'⟩
    · exact Or.inl (h1 ▸ h2)
    · exact Or.inr ⟨h1.trans h2, h1'.trans h2'⟩

/-- Model of `np.argsort(X)`: the index range of `X`, sorted stably by value. -/
def argsort (X : List ℚ) : List ℕ :=
  List.insertionSort (idxLe X) (List.range X.length)

/-! ## `nb_unique1d` rank vectors

In `_xicorr`, `nb_unique1d(Y)` returns (among others) the inverse index
`b` into the ascending unique values and the counts `c`; the source then
takes `np.cumsum(c)[b]`, whose `i`-th entry is precisely the number of
positions `j` with `Y j ≤ Y i`.  `nb_unique1d(-Y)` likewise yields the
number of positions with `Y j ≥ Y i`.  (The NaN branch of `nb_unique1d`
is dead over ℚ.)  We embed these two rank vectors directly. -/

def countLE (Y : List ℚ) (v : ℚ) : ℕ :=
  (Y.filter (fun w => decide (w ≤ v))).length

def countGE (Y : List ℚ) (v : ℚ) : ℕ :=
  (Y.filter (fun w => decide (v ≤ w))).length

/-- Sum of absolute successive differences: `np.abs(np.diff(r)).sum()`. -/
def absDiffSum : List ℤ → ℤ
  | a :: b :: t => |b - a| + absDiffSum (b :: t)
  | _ => 0

/-- Core of `_xicorr` after `Y` has been permuted by `argsort(X)`:
`n` is `X.size` and `Ys` the permuted `Y`. -/
def xicorrCore (n : ℕ) (Ys : List ℚ) : ℚ :=
  let r : List ℤ := Ys.map (fun v => (countLE Ys v : ℤ))
  let l : List ℤ := Ys.map (fun v => (countGE Ys v : ℤ))
  let denom : ℤ := 2 * (l.map (fun li => li * ((n : ℤ) - li))).sum
  if 0 < denom then 1 - (n : ℚ) * ((absDiffSum r : ℤ) : ℚ) / ((denom : ℤ) : ℚ)
  else 0

/-- `_xicorr(X, Y)` from `src/samap/mapping.py`: the xi correlation
coefficient.  `Y` is permuted by `argsort(X)`; the rank vector `r`
(resp. `l`) counts values `≤` (resp. `≥`) each entry; the statistic is
`1 - n * Σ|Δr| / (2 * Σ l*(n-l))`, and `0` when the denominator is not
positive. -/
def xicorr (X Y : List ℚ) : ℚ :=
  xicorrCore X.length ((argsort X).map (fun i => Y.getD i 0))

/-! ## Counting lemmas for strictly monotone rank inputs -/

theorem countLE_cons_of_le {a v : ℚ} {t : List ℚ} (h : a ≤ v) :
    countLE (a :: t) v = countLE t v + 1 := by
  simp [countLE, List.filter_cons, h]

theorem countLE_cons_of_gt {a v : ℚ} {t : List ℚ} (h : v < a) :
    countLE (a :: t) v = countLE t v := by
  simp [countLE, List.filter_cons, not_le.2 h]

theorem countGE_cons_of_le {a v : ℚ} {t : List ℚ} (h : v ≤ a) :
    countGE (a :: t) v = countGE t v + 1 := by
  simp [countGE, List.filter_cons, h]

theorem countGE_cons_of_gt {a v : ℚ} {t : List ℚ} (h : a < v) :
    countGE (a :: t) v = countGE t v := by
  simp [countGE, List.filter_cons, not_le.2 h]

theorem countLE_eq_zero {Y : List ℚ} {v : ℚ} (h : ∀ w ∈ Y, v < w) :
    countLE Y v = 0 := by
  simp only [countLE, List.length_eq_zero]
  exact List.filter_eq_nil_iff.2 (fun a ha => by simpa using not_le.2 (h a ha))

theorem countLE_eq_length {Y : List ℚ} {v : ℚ} (h : ∀ w ∈ Y, w ≤ v) :
    countLE Y v = Y.length := by
  simp only [countLE]
  rw [List.filter_eq_self.2 (fun a ha => by simpa using h a ha)]

theorem countGE_eq_zero {Y : List ℚ} {v : ℚ} (h : ∀ w ∈ Y, w < v) :
    countGE Y v = 0 := by
  simp only [countGE, List.length_eq_zero]
  exact List.filter_eq_nil_iff.2 (fun a ha => by simpa using not_le.2 (h a ha))

theorem countGE_eq_length {Y : List ℚ} {v : ℚ} (h : ∀ w ∈ Y, v ≤ w) :
    countGE Y v = Y.length := by
  simp only [countGE]
  rw [List.filter_eq_self.2 (fun a ha => by simpa using h a ha)]

/-- In a strictly increasing list, the vector of `countLE` ranks is
`[1, 2, …, n]`. -/
theorem map_countLE_of_inc : ∀ {L : List ℚ}, L.Pairwise (· < ·) →
    L.map (fun v => countLE L v) = (List.range L.length).map (fun i => i + 1)
  | [], _ => rfl
  | a :: t, h => by
    rcases List.pairwise_cons.1 h with ⟨ha, ht⟩
    have hhead : countLE (a :: t) a = 1 := by
      rw [countLE_cons_of_le le_rfl, countLE_eq_zero ha]
    have htail : t.map (fun v => countLE (a :: t) v) =
        ((List.range t.length).map (fun i => i + 1)).map (fun i => i + 1) := by
      rw [List.map_congr_left (fun v hv => countLE_cons_of_le (ha v hv).le),
        show (fun v => countLE t v + 1) = ((fun i => i + 1) ∘ fun v => countLE t v) from rfl,
        ← List.map_map, map_countLE_of_inc ht]
    calc (a :: t).map (fun v => countLE (a :: t) v)
        = countLE (a :: t) a :: t.map (fun v => countLE (a :: t) v) := rfl
      _ = 1 :: ((List.range t.length).map (fun i => i + 1)).map (fun i => i + 1) := by
          rw [hhead, htail]
      _ = (List.range (a :: t).length).map (fun i => i + 1) := by
          simp [List.range_succ_eq_map, List.map_map, Function.comp]

/-- In a strictly increasing list, the vector of `countGE` ranks is
`[n, n-1, …, 1]`. -/
theorem map_countGE_of_inc : ∀ {L : List ℚ}, L.Pairwise (· < ·) →
    L.map (fun v => countGE L v) = (List.range L.length).map (fun i => L.length - i)
  | [], _ => rfl
  | a :: t, h => by
    rcases List.pairwise_cons.1 h with ⟨ha, ht⟩
    have hhead : countGE (a :: t) a = t.length + 1 := by
      rw [countGE_cons_of_le le_rfl, countGE_eq_length (fun w hw => (ha w hw).le)]
    have htail : t.map (fun v => countGE (a :: t) v) =
        (List.range t.length).map (fun i => t.length - i) := by
      rw [List.map_congr_left (fun v hv => countGE_cons_of_gt (ha v hv)),
        map_countGE_of_inc ht]
    calc (a :: t).map (fun v => countGE (a :: t) v)
        = countGE (a :: t) a :: t.map (fun v => countGE (a :: t) v) := rfl
      _ = (t.length + 1) :: (List.range t.length).map (fun i => t.length - i) := by
          rw [hhead, htail]
      _ = (List.range (a :: t).length).map (fun i => (a :: t).length - i) := by
          simp [List.range_succ_eq_map, List.map_map, Function.comp, Nat.succ_sub_succ]

/-- In a strictly decreasing list, the vector of `countLE` ranks is
`[n, n-1, …, 1]`. -/
theorem map_countLE_of_dec : ∀ {L : List ℚ}, L.Pairwise (· > ·) →
    L.map (fun v => countLE L v) = (List.range L.length).map (fun i => L.length - i)
  | [], _ => rfl
  | a :: t, h => by
    rcases List.pairwise_cons.1 h with ⟨ha, ht⟩
    have hhead : countLE (a :: t) a = t.length + 1 := by
      rw [countLE_cons_of_le le_rfl, countLE_eq_length (fun w hw => (ha w hw).le)]
    have htail : t.map (fun v => countLE (a :: t) v) =
        (List.range t.length).map (fun i => t.length - i) := by
      rw [List.map_congr_left (fun v hv => countLE_cons_of_gt (ha v hv)),
        map_countLE_of_dec ht]
    calc (a :: t).map (fun v => countLE (a :: t) v)
        = countLE (a :: t) a :: t.map (fun v => countLE (a :: t) v) := rfl
      _ = (t.length + 1) :: (List.range t.length).map (fun i => t.length - i) := by
          rw [hhead, htail]
      _ = (List.range (a :: t).length).map (fun i => (a :: t).length - i) := by
          simp [List.range_succ_eq_map, List.map_map, Function.comp, Nat.succ_sub_succ]

/-- In a strictly decreasing list, the vector of `countGE` ranks is
`[1, 2, …, n]`. -/
theorem map_countGE_of_dec : ∀ {L : List ℚ}, L.Pairwise (· > ·) →
    L.map (fun v => countGE L v) = (List.range L.length).map (fun i => i + 1)
  | [], _ => rfl
  | a :: t, h => by
    rcases List.pairwise_cons.1 h with ⟨ha, ht⟩
    have hhead : countGE (a :: t) a = 1 := by
      rw [countGE_cons_of_le le_rfl, countGE_eq_zero ha]
    have htail : t.map (fun v => countGE (a :: t) v) =
        ((List.range t.length).map (fun i => i + 1)).map (fun i => i + 1) := by
      rw [List.map_congr_left (fun v hv => countGE_cons_of_le (ha v hv).le),
        show (fun v => countGE t v + 1) = ((fun i => i + 1) ∘ fun v => countGE t v) from rfl,
        ← List.map_map, map_countGE_of_dec ht]
    calc (a :: t).map (fun v => countGE (a :: t) v)
        = countGE (a :: t) a :: t.map (fun v => countGE (a :: t) v) := rfl
      _ = 1 :: ((List.range t.length).map (fun i => i + 1)).map (fun i => i + 1) := by
          rw [hhead, htail]
      _ = (List.range (a :: t).length).map (fun i => i + 1) := by
          simp [List.range_succ_eq_map, List.map_map, Function.comp]

/-! ## Arithmetic lemmas for the xi statistic -/

theorem absDiffSum_of_unit_steps : ∀ {L : List ℤ}, L ≠ [] →
    L.Chain' (fun a b => |b - a| = 1) → absDiffSum L = L.length - 1
  | [], h, _ => absurd rfl h
  | [_], _, _ => by simp [absDiffSum]
  | a :: b :: t, _, hc => by
    rcases List.chain'_cons.1 hc with ⟨hab, ht⟩
    have ih := absDiffSum_of_unit_steps (List.cons_ne_nil b t) ht
    show |b - a| + absDiffSum (b :: t) = _
    rw [hab, ih]
    push_cast [List.length_cons]
    ring

theorem list_sum_map_add (l : List ℕ) (f g : ℕ → ℤ) :
    (l.map (fun x => f x + g x)).sum = (l.map f).sum + (l.map g).sum := by
  induction l with
  | nil => simp
  | cons a t ih => simp [ih]; ring

theorem two_mul_sum_range (n : ℕ) :
    2 * (((List.range n).map (fun i : ℕ => (i : ℤ))).sum) = n * (n - 1) := by
  induction n with
  | zero => simp
  | succ m ih =>
    rw [List.range_succ, List.map_append, List.sum_append, Nat.cast_succ]
    simp only [List.map_cons, List.map_nil, List.sum_cons, List.sum_nil]
    nlinarith [ih]

theorem six_mul_sum_inc (n : ℕ) :
    6 * (((List.range n).map (fun i : ℕ => ((n : ℤ) - i) * ((n : ℤ) - ((n : ℤ) - i)))).sum)
      = n * (n - 1) * (n + 1) := by
  induction n with
  | zero => simp
  | succ m ih =>
    have hsplit : ((List.range (m + 1)).map
        (fun i : ℕ => (((m : ℤ) + 1) - i) * (((m : ℤ) + 1) - (((m : ℤ) + 1) - i)))).sum
        = ((List.range (m + 1)).map (fun i : ℕ => ((m : ℤ) - i) * ((m : ℤ) - ((m : ℤ) - i)))).sum
          + ((List.range (m + 1)).map (fun i : ℕ => (i : ℤ))).sum := by
      rw [← list_sum_map_add]
      exact congrArg List.sum (List.map_congr_left (fun i _ => by ring))
    have hlast : ((List.range (m + 1)).map
        (fun i : ℕ => ((m : ℤ) - i) * ((m : ℤ) - ((m : ℤ) - i)))).sum
        = ((List.range m).map (fun i : ℕ => ((m : ℤ) - i) * ((m : ℤ) - ((m : ℤ) - i)))).sum := by
      rw [List.range_succ, List.map_append, List.sum_append]
      simp
    have hg := two_mul_sum_range (m + 1)
    rw [Nat.cast_succ] at hg ⊢
    rw [hsplit, hlast]
    nlinarith [ih, hg]

theorem six_mul_sum_dec (n : ℕ) :
    6 * (((List.range n).map (fun i : ℕ => ((i : ℤ) + 1) * ((n : ℤ) - ((i : ℤ) + 1)))).sum)
      = n * (n - 1) * (n + 1) := by
  induction n with
  | zero => simp
  | succ m ih =>
    have hsplit : ((List.range (m + 1)).map
        (fun i : ℕ => ((i : ℤ) + 1) * (((m : ℤ) + 1) - ((i : ℤ) + 1)))).sum
        = ((List.range (m + 1)).map (fun i : ℕ => ((i : ℤ) + 1) * ((m : ℤ) - ((i : ℤ) + 1)))).sum
          + ((List.range (m + 1)).map (fun i : ℕ => (i : ℤ) + 1)).sum := by
      rw [← list_sum_map_add]
      exact congrArg List.sum (List.map_congr_left (fun i _ => by ring))
    have hlast : ((List.range (m + 1)).map
        (fun i : ℕ => ((i : ℤ) + 1) * ((m : ℤ) - ((i : ℤ) + 1)))).sum
        = ((List.range m).map (fun i : ℕ => ((i : ℤ) + 1) * ((m : ℤ) - ((i : ℤ) + 1)))).sum
          + ((m : ℤ) + 1) * (-1) := by
      rw [List.range_succ, List.map_append, List.sum_append]
      simp only [List.map_cons, List.map_nil, List.sum_cons, List.sum_nil]
      ring
    have hone : ((List.range (m + 1)).map (fun i : ℕ => (i : ℤ) + 1)).sum
        = ((List.range (m + 1)).map (fun i : ℕ => (i : ℤ))).sum + ((m : ℤ) + 1) := by
      rw [show (fun i : ℕ => (i : ℤ) + 1) = (fun i : ℕ => (i : ℤ) + (fun _ : ℕ => (1 : ℤ)) i)
        from rfl, list_sum_map_add]
      simp
    have hg := two_mul_sum_range (m + 1)
    rw [Nat.cast_succ] at hg ⊢
    rw [hsplit, hlast, hone]
    nlinarith [ih, hg]

/-! ## The xi statistic on strictly monotone inputs -/

theorem absDiffSum_inc (n : ℕ) (hn : 1 ≤ n) :
    absDiffSum ((List.range n).map (fun i : ℕ => (i : ℤ) + 1)) = (n : ℤ) - 1 := by
  have hne : (List.range n).map (fun i : ℕ => (i : ℤ) + 1) ≠ [] := by
    intro h
    have := congrArg List.length h
    simp at this
    omega
  have hch : ((List.range n).map (fun i : ℕ => (i : ℤ) + 1)).Chain'
      (fun a b => |b - a| = 1) := by
    rcases Nat.exists_eq_add_of_le hn with ⟨m, rfl⟩
    rw [List.chain'_map]
    rw [Nat.add_comm 1 m, List.chain'_range_succ]
    intro i _
    simp
  rw [absDiffSum_of_unit_steps hne hch]
  simp

theorem absDiffSum_dec (n : ℕ) (hn : 1 ≤ n) :
    absDiffSum ((List.range n).map (fun i : ℕ => (n : ℤ) - i)) = (n : ℤ) - 1 := by
  have hne : (List.range n).map (fun i : ℕ => (n : ℤ) - i) ≠ [] := by
    intro h
    have := congrArg List.length h
    simp at this
    omega
  have hch : ((List.range n).map (fun i : ℕ => (n : ℤ) - i)).Chain'
      (fun a b => |b - a| = 1) := by
    rcases Nat.exists_eq_add_of_le hn with ⟨m, rfl⟩
    rw [List.chain'_map]
    rw [Nat.add_comm 1 m, List.chain'_range_succ]
    intro i _
    have h1 : ((m + 1 : ℕ) : ℤ) - ((i.succ : ℕ) : ℤ) - (((m + 1 : ℕ) : ℤ) - ((i : ℕ) : ℤ))
        = -1 := by
      push_cast
      ring
    rw [h1]
    simp
  rw [absDiffSum_of_unit_steps hne hch]
  simp

/-- Value of the xi-statistic core on a strictly increasing permuted input of
full length: it is `1 - 3/(n+1)`, not 1. -/
theorem xicorrCore_inc {n : ℕ} {Ys : List ℚ} (hlen : Ys.length = n) (hn : 2 ≤ n)
    (hs : Ys.Pairwise (· < ·)) : xicorrCore n Ys = 1 - 3 / ((n : ℚ) + 1) := by
  have hr : Ys.map (fun v => (countLE Ys v : ℤ))
      = (List.range n).map (fun i : ℕ => (i : ℤ) + 1) := by
    rw [show (fun v => (countLE Ys v : ℤ)) = ((fun k : ℕ => (k : ℤ)) ∘ fun v => countLE Ys v)
      from rfl, ← List.map_map, map_countLE_of_inc hs, hlen, List.map_map]
    exact List.map_congr_left (fun i _ => by simp)
  have hl : Ys.map (fun v => (countGE Ys v : ℤ))
      = (List.range n).map (fun i : ℕ => (n : ℤ) - i) := by
    rw [show (fun v => (countGE Ys v : ℤ)) = ((fun k : ℕ => (k : ℤ)) ∘ fun v => countGE Ys v)
      from rfl, ← List.map_map, map_countGE_of_inc hs, hlen, List.map_map]
    refine List.map_congr_left (fun i hi => ?_)
    have : i < n := by simpa using hi
    simp [Function.comp]
    omega
  rw [xicorrCore, hr, hl, List.map_map]
  have hsum6 : 6 * (((List.range n).map
      ((fun li : ℤ => li * ((n : ℤ) - li)) ∘ fun i : ℕ => (n : ℤ) - i)).sum)
      = n * (n - 1) * (n + 1) := by
    have := six_mul_sum_inc n
    rw [show ((fun li : ℤ => li * ((n : ℤ) - li)) ∘ fun i : ℕ => (n : ℤ) - i)
      = (fun i : ℕ => ((n : ℤ) - i) * ((n : ℤ) - ((n : ℤ) - i))) from rfl]
    exact this
  set S : ℤ := ((List.range n).map
    ((fun li : ℤ => li * ((n : ℤ) - li)) ∘ fun i : ℕ => (n : ℤ) - i)).sum with hS
  have h2 : (2 : ℤ) ≤ (n : ℤ) := by exact_mod_cast hn
  have h1 : (0 : ℤ) < (n : ℤ) * ((n : ℤ) - 1) * ((n : ℤ) + 1) :=
    mul_pos (mul_pos (by linarith) (by linarith)) (by linarith)
  have hdenom : (0 : ℤ) < 2 * S := by linarith [hsum6]
  rw [if_pos hdenom, absDiffSum_inc n (by omega)]
  have hSQ : ((2 * S : ℤ) : ℚ) = 2 * (S : ℚ) := by push_cast; ring
  have hnn : (((n : ℤ) - 1 : ℤ) : ℚ) = (n : ℚ) - 1 := by push_cast; ring
  rw [hSQ, hnn]
  have hS0 : (2 : ℚ) * (S : ℚ) ≠ 0 := by
    have : (0 : ℚ) < 2 * (S : ℚ) := by exact_mod_cast hdenom
    exact this.ne'
  have hn1 : ((n : ℚ) + 1) ≠ 0 := by positivity
  have hkey : (n : ℚ) * ((n : ℚ) - 1) * ((n : ℚ) + 1) = 3 * (2 * (S : ℚ)) := by
    have hz : ((n : ℤ) * ((n : ℤ) - 1) * ((n : ℤ) + 1) : ℤ) = 3 * (2 * S) := by
      rw [← hsum6]; ring
    exact_mod_cast hz
  have hfrac : (n : ℚ) * ((n : ℚ) - 1) / (2 * (S : ℚ)) = 3 / ((n : ℚ) + 1) := by
    rw [div_eq_div_iff hS0 hn1]
    linear_combination hkey
  rw [hfrac]

/-- Value of the xi-statistic core on a strictly decreasing permuted input of
full length: the same `1 - 3/(n+1)`, close to +1 (not −1) for large n. -/
theorem xicorrCore_dec {n : ℕ} {Ys : List ℚ} (hlen : Ys.length = n) (hn : 2 ≤ n)
    (hs : Ys.Pairwise (· > ·)) : xicorrCore n Ys = 1 - 3 / ((n : ℚ) + 1) := by
  have hr : Ys.map (fun v => (countLE Ys v : ℤ))
      = (List.range n).map (fun i : ℕ => (n : ℤ) - i) := by
    rw [show (fun v => (countLE Ys v : ℤ)) = ((fun k : ℕ => (k : ℤ)) ∘ fun v => countLE Ys v)
      from rfl, ← List.map_map, map_countLE_of_dec hs, hlen, List.map_map]
    refine List.map_congr_left (fun i hi => ?_)
    have : i < n := by simpa using hi
    simp [Function.comp]
    omega
  have hl : Ys.map (fun v => (countGE Ys v : ℤ))
      = (List.range n).map (fun i : ℕ => (i : ℤ) + 1) := by
    rw [show (fun v => (countGE Ys v : ℤ)) = ((fun k : ℕ => (k : ℤ)) ∘ fun v => countGE Ys v)
      from rfl, ← List.map_map, map_countGE_of_dec hs, hlen, List.map_map]
    exact List.map_congr_left (fun i _ => by simp)
  rw [xicorrCore, hr, hl, List.map_map]
  have hsum6 : 6 * (((List.range n).map
      ((fun li : ℤ => li * ((n : ℤ) - li)) ∘ fun i : ℕ => (i : ℤ) + 1)).sum)
      = n * (n - 1) * (n + 1) := by
    have := six_mul_sum_dec n
    rw [show ((fun li : ℤ => li * ((n : ℤ) - li)) ∘ fun i : ℕ => (i : ℤ) + 1)
      = (fun i : ℕ => ((i : ℤ) + 1) * ((n : ℤ) - ((i : ℤ) + 1))) from rfl]
    exact this
  set S : ℤ := ((List.range n).map
    ((fun li : ℤ => li * ((n : ℤ) - li)) ∘ fun i : ℕ => (i : ℤ) + 1)).sum with hS
  have h2 : (2 : ℤ) ≤ (n : ℤ) := by exact_mod_cast hn
  have h1 : (0 : ℤ) < (n : ℤ) * ((n : ℤ) - 1) * ((n : ℤ) + 1) :=
    mul_pos (mul_pos (by linarith) (by linarith)) (by linarith)
  have hdenom : (0 : ℤ) < 2 * S := by linarith [hsum6]
  rw [if_pos hdenom, absDiffSum_dec n (by omega)]
  have hSQ : ((2 * S : ℤ) : ℚ) = 2 * (S : ℚ) := by push_cast; ring
  have hnn : (((n : ℤ) - 1 : ℤ) : ℚ) = (n : ℚ) - 1 := by push_cast; ring
  rw [hSQ, hnn]
  have hS0 : (2 : ℚ) * (S : ℚ) ≠ 0 := by
    have : (0 : ℚ) < 2 * (S : ℚ) := by exact_mod_cast hdenom
    exact this.ne'
  have hn1 : ((n : ℚ) + 1) ≠ 0 := by positivity
  have hkey : (n : ℚ) * ((n : ℚ) - 1) * ((n : ℚ) + 1) = 3 * (2 * (S : ℚ)) := by
    have hz : ((n : ℤ) * ((n : ℤ) - 1) * ((n : ℤ) + 1) : ℤ) = 3 * (2 * S) := by
      rw [← hsum6]; ring
    exact_mod_cast hz
  have hfrac : (n : ℚ) * ((n : ℚ) - 1) / (2 * (S : ℚ)) = 3 / ((n : ℚ) + 1) := by
    rw [div_eq_div_iff hS0 hn1]
    linear_combination hkey
  rw [hfrac]

/-! ## argsort front-end -/

theorem argsort_perm (X : List ℚ) : (argsort X).Perm (List.range X.length) :=
  List.perm_insertionSort (idxLe X) (List.range X.length)

/-- When `X` has no ties, permuting `X` by its own argsort yields a strictly
increasing sequence. -/
theorem Ys_inc_of_nodup {X : List ℚ} (h : X.Nodup) :
    ((argsort X).map (fun i => X.getD i 0)).Pairwise (· < ·) := by
  have hsorted : (argsort X).Pairwise (idxLe X) :=
    List.sorted_insertionSort (idxLe X) (List.range X.length)
  have hperm := argsort_perm X
  have hnodup : (argsort X).Nodup := hperm.nodup_iff.2 (List.nodup_range _)
  have hcomb : (argsort X).Pairwise (fun i j => idxLe X i j ∧ i ≠ j) :=
    hsorted.and hnodup
  rw [List.pairwise_map]
  refine hcomb.imp_of_mem ?_
  intro i j hi hj hij
  have hilt : i < X.length := by simpa using hperm.mem_iff.1 hi
  have hjlt : j < X.length := by simpa using hperm.mem_iff.1 hj
  rcases hij.1 with hlt | ⟨heq, _⟩
  · exact hlt
  · exfalso
    apply hij.2
    have hgi : X.getD i 0 = X[i] := List.getD_eq_getElem X 0 hilt
    have hgj : X.getD j 0 = X[j] := List.getD_eq_getElem X 0 hjlt
    exact h.getElem_inj_iff.1 (by rw [← hgi, ← hgj]; exact heq)

/-- On a strictly increasing list the (stable) argsort is the identity
permutation. -/
theorem argsort_of_inc {X : List ℚ} (h : X.Pairwise (· < ·)) :
    argsort X = List.range X.length := by
  apply List.Sorted.insertionSort_eq
  have hp : (List.range X.length).Pairwise (· < ·) := List.pairwise_lt_range _
  refine hp.imp_of_mem ?_
  intro i j hi hj hij
  left
  have hilt : i < X.length := by simpa using hi
  have hjlt : j < X.length := by simpa using hj
  have := List.pairwise_iff_getElem.1 h i j hilt hjlt hij
  rw [List.getD_eq_getElem X 0 hilt, List.getD_eq_getElem X 0 hjlt]
  exact this

theorem map_getD_range : ∀ (L : List ℚ),
    (List.range L.length).map (fun i => L.getD i 0) = L
  | [] => rfl
  | a :: t => by
    rw [List.length_cons, List.range_succ_eq_map, List.map_cons, List.map_map]
    simp only [List.getD_cons_zero, Function.comp_def, List.getD_cons_succ]
    rw [map_getD_range t]

/-! ## Claim C1 -/

/-- C1 (counterexample): for the tie-free input `X = [0,1,2]`,
`_xicorr(X, X)` evaluates to 1/4, not 1.0; and `_xicorr(X, reverse X)`
evaluates to the positive value 1/4, not a value close to −1. -/
theorem C1_counterexample :
    ([0, 1, 2] : List ℚ).Nodup ∧
    ([0, 1, 2] : List ℚ).reverse = [2, 1, 0] ∧
    xicorr [0, 1, 2] [0, 1, 2] = 1/4 ∧
    xicorr [0, 1, 2] [0, 1, 2] ≠ 1 ∧
    xicorr [0, 1, 2] [2, 1, 0] = 1/4 ∧
    0 < xicorr [0, 1, 2] [2, 1, 0] := by
  have h1 : xicorr [0, 1, 2] [0, 1, 2] = 1/4 := by
    rw [xicorr, show (argsort [0, 1, 2]).map (fun i => ([0, 1, 2] : List ℚ).getD i 0)
      = [0, 1, 2] from by decide]
    rw [xicorrCore]
    rw [show ([0, 1, 2] : List ℚ).map (fun v => (countLE [0, 1, 2] v : ℤ)) = [1, 2, 3]
      from by decide]
    rw [show ([0, 1, 2] : List ℚ).map (fun v => (countGE [0, 1, 2] v : ℤ)) = [3, 2, 1]
      from by decide]
    norm_num [absDiffSum]
  have h2 : xicorr [0, 1, 2] [2, 1, 0] = 1/4 := by
    rw [xicorr, show (argsort [0, 1, 2]).map (fun i => ([2, 1, 0] : List ℚ).getD i 0)
      = [2, 1, 0] from by decide]
    rw [xicorrCore]
    rw [show ([2, 1, 0] : List ℚ).map (fun v => (countLE [2, 1, 0] v : ℤ)) = [3, 2, 1]
      from by decide]
    rw [show ([2, 1, 0] : List ℚ).map (fun v => (countGE [2, 1, 0] v : ℤ)) = [1, 2, 3]
      from by decide]
    norm_num [absDiffSum]
  refine ⟨by decide, by decide, h1, ?_, h2, ?_⟩
  · rw [h1]; norm_num
  · rw [h2]; norm_num

/-- C1 (amended): for every tie-free sequence `X` of length `n ≥ 2`,
`xicorr(X, X)` equals `1 − 3/(n+1)` — strictly below 1.0 for every finite
`n`, approaching 1 only in the limit; and for strictly increasing `X`,
`xicorr(X, reverse X)` equals the same value `1 − 3/(n+1)`: a large
positive value close to +1 (not −1) for large `n`, since the xi statistic
measures functional dependence, not its sign. -/
theorem C1_xicorr_selftest_amended (X : List ℚ) (hn : 2 ≤ X.length) :
    (X.Nodup → xicorr X X = 1 - 3 / ((X.length : ℚ) + 1) ∧
      xicorr X X < 1) ∧
    (X.Pairwise (· < ·) →
      xicorr X X.reverse = 1 - 3 / ((X.length : ℚ) + 1) ∧
      0 ≤ xicorr X X.reverse) := by
  have hval : 1 - 3 / ((X.length : ℚ) + 1) < 1 ∧
      0 ≤ 1 - 3 / ((X.length : ℚ) + 1) := by
    have h2 : (2 : ℚ) ≤ (X.length : ℚ) := by exact_mod_cast hn
    have hpos : (0 : ℚ) < (X.length : ℚ) + 1 := by linarith
    constructor
    · have : (0 : ℚ) < 3 / ((X.length : ℚ) + 1) := by positivity
      linarith
    · have : 3 / ((X.length : ℚ) + 1) ≤ 1 := by
        rw [div_le_one hpos]
        linarith
      linarith
  constructor
  · intro h
    have he : xicorr X X = 1 - 3 / ((X.length : ℚ) + 1) :=
      xicorrCore_inc (by simp [argsort]) hn (Ys_inc_of_nodup h)
    exact ⟨he, by rw [he]; exact hval.1⟩
  · intro h
    have he : xicorr X X.reverse = 1 - 3 / ((X.length : ℚ) + 1) := by
      rw [xicorr, argsort_of_inc h]
      have hx : (List.range X.length).map (fun i => X.reverse.getD i 0) = X.reverse := by
        have := map_getD_range X.reverse
        rw [List.length_reverse] at this
        exact this
      rw [hx]
      refine xicorrCore_dec (by simp) hn ?_
      refine (List.pairwise_reverse).2 ?_
      simpa [flip] using h
    exact ⟨he, by rw [he]; exact hval.2⟩

/-- Witness for C1: the amended theorem applied to the concrete tie-free
input `[0,1,2,3]` (n = 4, value 1 − 3/5). -/
theorem C1_xicorr_selftest_amended_witness :
    xicorr [0, 1, 2, 3] [0, 1, 2, 3]
      = 1 - 3 / ((([0, 1, 2, 3] : List ℚ).length : ℚ) + 1) ∧
    xicorr [0, 1, 2, 3] [3, 2, 1, 0]
      = 1 - 3 / ((([0, 1, 2, 3] : List ℚ).length : ℚ) + 1) := by
  have h := C1_xicorr_selftest_amended [0, 1, 2, 3] (by decide)
  refine ⟨(h.1 (by decide)).1, ?_⟩
  have h2 := (h.2 (by decide)).1
  rw [show ([0, 1, 2, 3] : List ℚ).reverse = [3, 2, 1, 0] from rfl] at h2
  exact h2

/-! ## CorrelationRefiner kernel (`_refine_corr_kernel`, `_refine_corr_parallel`)

The kernel receives, for a gene pair, the two neighborhood-averaged
profiles already restricted to the concatenated cells of the two species
of the pair (`xx = append(x[ix1], x[ix2])`, `yy` likewise); no further
restriction to supported cells happens in `src/samap/mapping.py`.  Floats
are modelled as exact reals; the `NaN` arising from division by a zero
standard deviation is modelled by `Option.none`. -/

def qmean (xs : List ℚ) : ℚ := xs.sum / xs.length

/-- Sum of squared deviations `Σ (x − mean)²`. -/
def ssq (xs : List ℚ) : ℚ := (xs.map (fun x => (x - qmean xs)^2)).sum

/-- Population variance as computed by `numpy.std(..)²`: `ssq / n`. -/
def varQ (xs : List ℚ) : ℚ := ssq xs / xs.length

/-- `numpy` standard deviation `xs.std()`. -/
noncomputable def npStd (xs : List ℚ) : ℝ := Real.sqrt ((varQ xs : ℚ) : ℝ)

/-- The Pearson branch of `_refine_corr_kernel`:
`((xx-xx.mean())*(yy-yy.mean()) / xx.std() / yy.std()).sum() / xx.size`. -/
noncomputable def pearsonSum (xx yy : List ℚ) : ℝ :=
  (((xx.zip yy).map (fun p => ((p.1 - qmean xx : ℚ) : ℝ) * ((p.2 - qmean yy : ℚ) : ℝ)
      / npStd xx / npStd yy)).sum) / (xx.length : ℝ)

/-- One entry of `_refine_corr_kernel` (`src/samap/mapping.py`): the mode
dispatch is `if corr_mode == "pearson": …  else: c = _xicorr(xx, yy)`, so
every mode string other than `"pearson"` lands in the xi-correlation
branch.  A zero standard deviation makes every Pearson term `0/0 = NaN`
(modelled by `none`); with both deviations nonzero the Pearson value is a
finite real. -/
noncomputable def refineKernelEntry (corr_mode : String) (xx yy : List ℚ) : Option ℝ :=
  if corr_mode = "pearson" then
    if varQ xx = 0 ∨ varQ yy = 0 then none
    else some (pearsonSum xx yy)
  else some ((xicorr xx yy : ℚ) : ℝ)

/-- Per-pair value after the post-processing in `_refine_corr_parallel`:
`vals[np.isnan(vals)] = 0` (the `getD 0`) followed by
`CORR[k] = 0 if CORR[k] < THR else CORR[k]`. -/
noncomputable def refineValue (corr_mode : String) (THR : ℚ) (xx yy : List ℚ) : ℝ :=
  let v := (refineKernelEntry corr_mode xx yy).getD 0
  if v < (THR : ℝ) then 0 else v

/-- Numerator of the sample correlation: `Σ (x−μx)(y−μy)` over paired cells. -/
def sxy (xx yy : List ℚ) : ℚ :=
  ((xx.zip yy).map (fun p => (p.1 - qmean xx) * (p.2 - qmean yy))).sum

/-- Modelled from the spec: the "standard sample correlation coefficient"
`r = Σ(x−μx)(y−μy) / sqrt(Σ(x−μx)² · Σ(y−μy)²)`. -/
noncomputable def samplePearson (xx yy : List ℚ) : ℝ :=
  ((sxy xx yy : ℚ) : ℝ) / Real.sqrt (((ssq xx : ℚ) : ℝ) * ((ssq yy : ℚ) : ℝ))

/-- Modelled from the spec: restriction of the paired profiles to "the cells
where at least one of the two profiles has nonzero support". -/
def supportRestrict (xx yy : List ℚ) : List (ℚ × ℚ) :=
  (xx.zip yy).filter (fun p => decide (p.1 ≠ 0 ∨ p.2 ≠ 0))

/-- Modelled from the spec: the correlation the spec describes — the standard
sample correlation computed only over the support-restricted cells. -/
noncomputable def specRestrictedPearson (xx yy : List ℚ) : ℝ :=
  samplePearson ((supportRestrict xx yy).map Prod.fst)
    ((supportRestrict xx yy).map Prod.snd)

/-- `_parallel_wrapper` from `src/SAMap.py` (legacy two-species refiner): it
restricts to `iz` (union support above `T2`), requires a nonempty
intersection support `izf`, supports only `"pearson"`
(`np.corrcoef(x[iz], y[iz])[0,1]`, i.e. the sample correlation of the
restricted profiles), and for any other mode prints a message and
`return`s without storing a value for the pair — modelled by `none`,
which the collection step of `_refine_corr_parallel` later turns into a
`KeyError`. -/
noncomputable def legacyParallelWrapper (corr_mode : String) (x y : List ℚ)
    (T2 : ℚ) : Option ℝ :=
  let iz := (x.zip y).filter (fun p => decide (T2 < p.1 ∨ T2 < p.2))
  let izf := (x.zip y).filter (fun p => decide (T2 < p.1 ∧ T2 < p.2))
  if 0 < izf.length then
    if corr_mode = "pearson" then
      some (samplePearson (iz.map Prod.fst) (iz.map Prod.snd))
    else none
  else some 0

/-! ## Denominator algebra: the kernel formula equals the textbook r -/

theorem ssq_nonneg (xs : List ℚ) : 0 ≤ ssq xs := by
  apply List.sum_nonneg
  intro a ha
  simp only [List.mem_map] at ha
  obtain ⟨x, _, rfl⟩ := ha
  positivity

theorem list_sum_map_div {α : Type} (l : List α) (f : α → ℝ) (c : ℝ) :
    (l.map (fun p => f p / c)).sum = (l.map f).sum / c := by
  induction l with
  | nil => simp
  | cons a t ih => simp [ih, add_div]

/-- The kernel's Pearson formula agrees with the standard sample
correlation coefficient over the same (full) cell set whenever the
profiles are the same length and both have nonzero dispersion. -/
theorem pearsonSum_eq_samplePearson {xx yy : List ℚ} (hlen : yy.length = xx.length)
    (hpos : 0 < xx.length) :
    pearsonSum xx yy = samplePearson xx yy := by
  have hn : (0 : ℝ) < (xx.length : ℝ) := by exact_mod_cast hpos
  have hsx : (0 : ℝ) ≤ ((ssq xx : ℚ) : ℝ) := by exact_mod_cast ssq_nonneg xx
  have hsy : (0 : ℝ) ≤ ((ssq yy : ℚ) : ℝ) := by exact_mod_cast ssq_nonneg yy
  have hterm : (fun p : ℚ × ℚ => ((p.1 - qmean xx : ℚ) : ℝ) * ((p.2 - qmean yy : ℚ) : ℝ)
      / npStd xx / npStd yy)
      = (fun p : ℚ × ℚ => (((p.1 - qmean xx) * (p.2 - qmean yy) : ℚ) : ℝ)
        / (npStd xx * npStd yy)) := by
    funext p
    rw [div_div]
    push_cast
    ring
  rw [pearsonSum, hterm, list_sum_map_div]
  have hcast : ((xx.zip yy).map (fun p : ℚ × ℚ =>
      (((p.1 - qmean xx) * (p.2 - qmean yy) : ℚ) : ℝ))).sum = ((sxy xx yy : ℚ) : ℝ) := by
    rw [show (fun p : ℚ × ℚ => (((p.1 - qmean xx) * (p.2 - qmean yy) : ℚ) : ℝ))
      = ((fun q : ℚ => (q : ℝ)) ∘ (fun p : ℚ × ℚ => (p.1 - qmean xx) * (p.2 - qmean yy)))
      from rfl, ← List.map_map, sxy]
    exact (map_list_sum (Rat.castHom ℝ) _).symm
  rw [hcast, div_div, samplePearson]
  congr 1
  have hvx : ((varQ xx : ℚ) : ℝ) = ((ssq xx : ℚ) : ℝ) / (xx.length : ℝ) := by
    rw [varQ]
    push_cast
    ring
  have hvy : ((varQ yy : ℚ) : ℝ) = ((ssq yy : ℚ) : ℝ) / (xx.length : ℝ) := by
    rw [varQ, hlen]
    push_cast
    ring
  rw [npStd, npStd, hvx, hvy,
    ← Real.sqrt_mul (div_nonneg hsx hn.le),
    show ((ssq xx : ℚ) : ℝ) / (xx.length : ℝ) * (((ssq yy : ℚ) : ℝ) / (xx.length : ℝ))
      = ((ssq xx : ℚ) : ℝ) * ((ssq yy : ℚ) : ℝ) / ((xx.length : ℝ) * (xx.length : ℝ))
      from by ring,
    Real.sqrt_div (mul_nonneg hsx hsy), Real.sqrt_mul_self hn.le,
    div_mul_cancel₀ _ hn.ne']

/-! ## Degenerate kernel inputs -/

/-- An all-equal second argument makes the tie-adjusted denominator of
`_xicorr` vanish, and the function returns its defined fallback 0. -/
theorem xicorr_of_const {X Y : List ℚ} {c : ℚ} (hlen : Y.length = X.length)
    (hc : ∀ v ∈ Y, v = c) : xicorr X Y = 0 := by
  rw [xicorr, xicorrCore]
  have hYs : ∀ w ∈ (argsort X).map (fun i => Y.getD i 0), w = c := by
    intro w hw
    simp only [List.mem_map] at hw
    obtain ⟨i, hi, rfl⟩ := hw
    have hir : i < X.length := by simpa using (argsort_perm X).mem_iff.1 hi
    have hiY : i < Y.length := by omega
    rw [List.getD_eq_getElem Y 0 hiY]
    exact hc _ (List.getElem_mem hiY)
  have hlenYs : ((argsort X).map (fun i => Y.getD i 0)).length = X.length := by
    simp [argsort]
  have hl : ((argsort X).map (fun i => Y.getD i 0)).map
      (fun v => (countGE ((argsort X).map (fun i => Y.getD i 0)) v : ℤ))
      = ((argsort X).map (fun i => Y.getD i 0)).map (fun _ => (X.length : ℤ)) := by
    apply List.map_congr_left
    intro v hv
    have : countGE ((argsort X).map (fun i => Y.getD i 0)) v
        = ((argsort X).map (fun i => Y.getD i 0)).length := by
      apply countGE_eq_length
      intro w hw
      rw [hYs w hw, hYs v hv]
    rw [this, hlenYs]
  rw [hl, List.map_map]
  have hzero : (((argsort X).map (fun i => Y.getD i 0)).map
      ((fun li : ℤ => li * ((X.length : ℤ) - li)) ∘ fun _ => (X.length : ℤ))).sum = 0 := by
    apply List.sum_eq_zero
    intro z hz
    simp only [List.mem_map, Function.comp] at hz
    obtain ⟨w, _, rfl⟩ := hz
    simp
  rw [hzero]
  norm_num

theorem sum_centered_prod (L : List (ℚ × ℚ)) (a b : ℚ) :
    (L.map (fun p => (p.1 - a) * (p.2 - b))).sum
      = (L.map (fun p => p.1 * p.2)).sum - b * (L.map Prod.fst).sum
        - a * (L.map Prod.snd).sum + L.length * (a * b) := by
  induction L with
  | nil => simp
  | cons p t ih =>
    simp only [List.map_cons, List.sum_cons, List.length_cons, ih]
    push_cast
    ring

/-- With nonnegative profiles of disjoint support (no cell where both are
nonzero), the centered product sum `Σ(x−μx)(y−μy)` is nonpositive:
it equals `−(Σx·Σy)/n`. -/
theorem sxy_nonpos_of_disjoint {xx yy : List ℚ} (hlen : yy.length = xx.length)
    (hxx : ∀ v ∈ xx, 0 ≤ v) (hyy : ∀ v ∈ yy, 0 ≤ v)
    (hdisj : ∀ p ∈ xx.zip yy, p.1 = 0 ∨ p.2 = 0) : sxy xx yy ≤ 0 := by
  rw [sxy, sum_centered_prod]
  have hzip1 : (xx.zip yy).map Prod.fst = xx := List.map_fst_zip xx yy (by omega)
  have hzip2 : (xx.zip yy).map Prod.snd = yy := List.map_snd_zip xx yy (by omega)
  have hzlen : ((xx.zip yy).length : ℚ) = (xx.length : ℚ) := by
    rw [List.length_zip]
    congr 1
    omega
  have hprod : ((xx.zip yy).map (fun p => p.1 * p.2)).sum = 0 := by
    apply List.sum_eq_zero
    intro z hz
    simp only [List.mem_map] at hz
    obtain ⟨p, hp, rfl⟩ := hz
    rcases hdisj p hp with h | h <;> simp [h]
  rw [hprod, hzip1, hzip2, hzlen]
  by_cases hn : xx.length = 0
  · have hxnil : xx = [] := List.length_eq_zero.1 hn
    have hynil : yy = [] := List.length_eq_zero.1 (by omega)
    simp [hxnil, hynil, qmean]
  · have hnQ : (0 : ℚ) < (xx.length : ℚ) := by
      have : 0 < xx.length := Nat.pos_of_ne_zero hn
      exact_mod_cast this
    have hsx : 0 ≤ xx.sum := List.sum_nonneg hxx
    have hsy : 0 ≤ yy.sum := List.sum_nonneg hyy
    have hq : (0 : ℚ) - qmean yy * xx.sum - qmean xx * yy.sum
        + (xx.length : ℚ) * (qmean xx * qmean yy)
        = -(xx.sum * yy.sum) / (xx.length : ℚ) := by
      rw [qmean, qmean, hlen]
      field_simp
      ring
    rw [hq]
    apply div_nonpos_iff.2
    right
    constructor
    · simp only [neg_nonpos]
      exact mul_nonneg hsx hsy
    · exact hnQ.le

/-! ## Concrete kernel evaluations -/

theorem xicorr_rev3_eval : xicorr [0, 1, 2] [2, 1, 0] = 1/4 := by
  rw [xicorr, show (argsort [0, 1, 2]).map (fun i => ([2, 1, 0] : List ℚ).getD i 0)
    = [2, 1, 0] from by decide]
  rw [xicorrCore]
  rw [show ([2, 1, 0] : List ℚ).map (fun v => (countLE [2, 1, 0] v : ℤ)) = [3, 2, 1]
    from by decide]
  rw [show ([2, 1, 0] : List ℚ).map (fun v => (countGE [2, 1, 0] v : ℤ)) = [1, 2, 3]
    from by decide]
  norm_num [absDiffSum]

theorem xicorr_disjoint4_eval : xicorr [1, 2, 0, 0] [0, 0, 1, 2] = 1/7 := by
  rw [xicorr, show (argsort [1, 2, 0, 0]).map (fun i => ([0, 0, 1, 2] : List ℚ).getD i 0)
    = [1, 2, 0, 0] from by decide]
  rw [xicorrCore]
  rw [show ([1, 2, 0, 0] : List ℚ).map (fun v => (countLE [1, 2, 0, 0] v : ℤ)) = [3, 4, 2, 2]
    from by decide]
  rw [show ([1, 2, 0, 0] : List ℚ).map (fun v => (countGE [1, 2, 0, 0] v : ℤ)) = [2, 1, 4, 4]
    from by decide]
  norm_num [absDiffSum]

theorem samplePearson_eval {xx yy : List ℚ} {a b c r : ℚ} (hxy : sxy xx yy = a)
    (hx : ssq xx = b) (hy : ssq yy = c) (hr : 0 ≤ r) (hbc : b * c = r^2) :
    samplePearson xx yy = ((a : ℚ) : ℝ) / ((r : ℚ) : ℝ) := by
  rw [samplePearson, hxy, hx, hy]
  have h1 : ((b : ℚ) : ℝ) * ((c : ℚ) : ℝ) = (((r : ℚ) : ℝ))^2 := by
    exact_mod_cast congrArg (fun q : ℚ => (q : ℝ)) hbc
  rw [h1, Real.sqrt_sq (by exact_mod_cast hr)]

/-! ## Claim C7 -/

/-- C7 (counterexample): the kernel in `src/samap/mapping.py` computes the
Pearson correlation over ALL cells of the two species, not only over the
cells where at least one profile has nonzero support.  On the concrete
profiles x = [1,0,0], y = [0,1,0] the kernel value is −1/2, while the
spec's support-restricted standard correlation is −1. -/
theorem C7_counterexample :
    pearsonSum [1, 0, 0] [0, 1, 0] = -(1/2) ∧
    specRestrictedPearson [1, 0, 0] [0, 1, 0] = -1 ∧
    pearsonSum [1, 0, 0] [0, 1, 0] ≠ specRestrictedPearson [1, 0, 0] [0, 1, 0] := by
  have h1 : pearsonSum [1, 0, 0] [0, 1, 0] = -(1/2) := by
    rw [pearsonSum_eq_samplePearson
      (show ([0, 1, 0] : List ℚ).length = ([1, 0, 0] : List ℚ).length from rfl)
      (show 0 < ([1, 0, 0] : List ℚ).length from by norm_num)]
    rw [samplePearson_eval
      (show sxy [1, 0, 0] [0, 1, 0] = -(1/3) from by
        norm_num [sxy, qmean, List.zip_cons_cons])
      (show ssq [1, 0, 0] = 2/3 from by norm_num [ssq, qmean])
      (show ssq [0, 1, 0] = 2/3 from by norm_num [ssq, qmean])
      (show (0 : ℚ) ≤ 2/3 from by norm_num)
      (show (2/3 : ℚ) * (2/3) = (2/3)^2 from by norm_num)]
    push_cast
    norm_num
  have h2 : specRestrictedPearson [1, 0, 0] [0, 1, 0] = -1 := by
    rw [specRestrictedPearson,
      show supportRestrict [1, 0, 0] [0, 1, 0] = [(1, 0), (0, 1)] from by decide]
    rw [show ([((1 : ℚ), (0 : ℚ)), (0, 1)]).map Prod.fst = [1, 0] from rfl,
      show ([((1 : ℚ), (0 : ℚ)), (0, 1)]).map Prod.snd = [0, 1] from rfl]
    rw [samplePearson_eval
      (show sxy [1, 0] [0, 1] = -(1/2) from by
        norm_num [sxy, qmean, List.zip_cons_cons])
      (show ssq [1, 0] = 1/2 from by norm_num [ssq, qmean])
      (show ssq [0, 1] = 1/2 from by norm_num [ssq, qmean])
      (show (0 : ℚ) ≤ 1/2 from by norm_num)
      (show (1/2 : ℚ) * (1/2) = (1/2)^2 from by norm_num)]
    push_cast
    norm_num
  refine ⟨h1, h2, ?_⟩
  rw [h1, h2]
  norm_num

/-- C7 (amended): for every homology edge the kernel computes the
correlation of the two genes' neighborhood-averaged profiles over ALL
cells of the two species (concatenated), with no restriction to supported
cells; in Pearson mode — whenever both profiles have nonzero dispersion —
the stored value equals the standard sample correlation coefficient over
that full cell set. -/
theorem C7_refiner_correlation_amended (xx yy : List ℚ) (hlen : yy.length = xx.length)
    (hpos : 0 < xx.length) (hx : varQ xx ≠ 0) (hy : varQ yy ≠ 0) :
    refineKernelEntry "pearson" xx yy = some (samplePearson xx yy) := by
  rw [refineKernelEntry, if_pos rfl, if_neg (by push_neg; exact ⟨hx, hy⟩)]
  exact congrArg some (pearsonSum_eq_samplePearson hlen hpos)

/-- Witness for C7 at the concrete profiles [0,1] and [0,2]. -/
theorem C7_refiner_correlation_amended_witness :
    refineKernelEntry "pearson" [0, 1] [0, 2] = some (samplePearson [0, 1] [0, 2]) := by
  exact C7_refiner_correlation_amended [0, 1] [0, 2] rfl (by norm_num)
    (by norm_num [varQ, ssq, qmean]) (by norm_num [varQ, ssq, qmean])

/-! ## Claim C8 -/

/-- C8 (counterexample): in xi-correlation mode, a pair of profiles with
disjoint support (no cell where both are nonzero) is NOT assigned the
defined score 0: on x = [1,2,0,0], y = [0,0,1,2] the refiner stores 1/7,
even with the default threshold THR = 0. -/
theorem C8_counterexample :
    (∀ p ∈ ([1, 2, 0, 0] : List ℚ).zip ([0, 0, 1, 2] : List ℚ), p.1 = 0 ∨ p.2 = 0) ∧
    refineValue "xicorr" 0 [1, 2, 0, 0] [0, 0, 1, 2] = ((1/7 : ℚ) : ℝ) ∧
    refineValue "xicorr" 0 [1, 2, 0, 0] [0, 0, 1, 2] ≠ 0 := by
  have hv : refineValue "xicorr" 0 [1, 2, 0, 0] [0, 0, 1, 2] = ((1/7 : ℚ) : ℝ) := by
    rw [refineValue, refineKernelEntry,
      if_neg (show ¬("xicorr" : String) = "pearson" from by decide)]
    simp only [Option.getD_some]
    rw [xicorr_disjoint4_eval]
    rw [if_neg (show ¬((1/7 : ℚ) : ℝ) < ((0 : ℚ) : ℝ) from by push_cast; norm_num)]
  refine ⟨by decide, hv, ?_⟩
  rw [hv]
  push_cast
  norm_num

/-- C8 (amended): the refiner assigns the defined score 0, raising no
exception, for: (i) any Pearson-mode pair with a zero-variance profile —
the NaN from `0/0` is replaced by 0 for every THR; (ii) any xi-mode pair
whose second profile is constant (degenerate tie-adjusted denominator);
(iii) any Pearson-mode pair of nonnegative profiles with disjoint support,
provided THR ≥ 0 — the full-set correlation is then nonpositive and the
post-hoc threshold zeroes it.  Disjoint support does NOT resolve to 0 in
xi-correlation mode (see the counterexample). -/
theorem C8_degenerate_inputs_amended :
    (∀ (THR : ℚ) (xx yy : List ℚ), varQ xx = 0 ∨ varQ yy = 0 →
      refineValue "pearson" THR xx yy = 0) ∧
    (∀ (THR : ℚ) (X Y : List ℚ) (c : ℚ), Y.length = X.length → (∀ v ∈ Y, v = c) →
      refineValue "xicorr" THR X Y = 0) ∧
    (∀ (THR : ℚ) (xx yy : List ℚ), 0 ≤ THR → yy.length = xx.length →
      (∀ v ∈ xx, 0 ≤ v) → (∀ v ∈ yy, 0 ≤ v) →
      (∀ p ∈ xx.zip yy, p.1 = 0 ∨ p.2 = 0) →
      refineValue "pearson" THR xx yy = 0) := by
  refine ⟨?_, ?_, ?_⟩
  · intro THR xx yy hdeg
    rw [refineValue, refineKernelEntry, if_pos rfl, if_pos hdeg]
    simp only [Option.getD_none]
    split <;> rfl
  · intro THR X Y c hlen hc
    rw [refineValue, refineKernelEntry,
      if_neg (show ¬("xicorr" : String) = "pearson" from by decide)]
    simp only [Option.getD_some]
    rw [xicorr_of_const hlen hc]
    simp only [Rat.cast_zero]
    split <;> rfl
  · intro THR xx yy hthr hlen hxx hyy hdisj
    rw [refineValue, refineKernelEntry, if_pos rfl]
    by_cases hdeg : varQ xx = 0 ∨ varQ yy = 0
    · rw [if_pos hdeg]
      simp only [Option.getD_none]
      split <;> rfl
    · rw [if_neg hdeg]
      push_neg at hdeg
      have hpos : 0 < xx.length := by
        rcases Nat.eq_zero_or_pos xx.length with h0 | h
        · exact absurd (by rw [varQ, h0]; simp) hdeg.1
        · exact h
      have hval : pearsonSum xx yy = samplePearson xx yy :=
        pearsonSum_eq_samplePearson hlen hpos
      have hvle : samplePearson xx yy ≤ 0 := by
        rw [samplePearson]
        apply div_nonpos_iff.2
        right
        refine ⟨?_, Real.sqrt_nonneg _⟩
        exact_mod_cast sxy_nonpos_of_disjoint hlen hxx hyy hdisj
      simp only [Option.getD_some, hval]
      by_cases hcut : samplePearson xx yy < (THR : ℝ)
      · rw [if_pos hcut]
      · rw [if_neg hcut]
        push_neg at hcut
        have h0T : (0 : ℝ) ≤ (THR : ℝ) := by exact_mod_cast hthr
        exact le_antisymm hvle (le_trans h0T hcut)

/-- Witness for C8: each clause applied to a concrete input — a constant
Pearson profile, a constant xi profile, and disjoint nonnegative supports. -/
theorem C8_degenerate_inputs_amended_witness :
    refineValue "pearson" 0 [2, 2] [0, 1] = 0 ∧
    refineValue "xicorr" 0 [0, 1] [5, 5] = 0 ∧
    refineValue "pearson" 0 [1, 0] [0, 1] = 0 := by
  obtain ⟨h1, h2, h3⟩ := C8_degenerate_inputs_amended
  refine ⟨h1 0 [2, 2] [0, 1] (Or.inl (by norm_num [varQ, ssq, qmean])),
    h2 0 [0, 1] [5, 5] 5 rfl (by decide),
    h3 0 [1, 0] [0, 1] le_rfl rfl (by decide) (by decide) (by decide)⟩

/-! ## Claim C3 -/

/-- C3 (counterexample): with the unrecognized correlation mode "banana"
the refinement kernel of `src/samap/mapping.py` does not fail at all: it
silently computes the xi-correlation substitute, returning exactly the
value that mode "xicorr" returns (1/4 on these concrete profiles). -/
theorem C3_counterexample :
    ("banana" : String) ≠ "pearson" ∧ ("banana" : String) ≠ "xicorr" ∧
    refineKernelEntry "banana" [0, 1, 2] [2, 1, 0]
      = refineKernelEntry "xicorr" [0, 1, 2] [2, 1, 0] ∧
    refineKernelEntry "banana" [0, 1, 2] [2, 1, 0] = some ((1/4 : ℚ) : ℝ) := by
  have h1 : refineKernelEntry "banana" [0, 1, 2] [2, 1, 0] = some ((1/4 : ℚ) : ℝ) := by
    rw [refineKernelEntry, if_neg (show ¬("banana" : String) = "pearson" from by decide),
      xicorr_rev3_eval]
  have h2 : refineKernelEntry "xicorr" [0, 1, 2] [2, 1, 0] = some ((1/4 : ℚ) : ℝ) := by
    rw [refineKernelEntry, if_neg (show ¬("xicorr" : String) = "pearson" from by decide),
      xicorr_rev3_eval]
  exact ⟨by decide, by decide, h1.trans h2.symm, h1⟩

/-- C3 (amended): the current kernel treats EVERY mode other than
"pearson" — including unrecognized ones — as xi-correlation and silently
computes edge weights with it; only the legacy `SAMap.py` wrapper stores
nothing for an unrecognized mode (printing a message), so that path fails
later with a `KeyError` during collection rather than with an immediate
configuration error. -/
theorem C3_unrecognized_mode_amended :
    (∀ (corr_mode : String) (xx yy : List ℚ), corr_mode ≠ "pearson" →
      refineKernelEntry corr_mode xx yy = some ((xicorr xx yy : ℚ) : ℝ)) ∧
    (∀ (corr_mode : String) (x y : List ℚ) (T2 : ℚ), corr_mode ≠ "pearson" →
      0 < ((x.zip y).filter (fun p => decide (T2 < p.1 ∧ T2 < p.2))).length →
      legacyParallelWrapper corr_mode x y T2 = none) := by
  constructor
  · intro m xx yy hm
    rw [refineKernelEntry, if_neg hm]
  · intro m x y T2 hm hnz
    rw [legacyParallelWrapper]
    rw [if_pos hnz, if_neg hm]

/-- Witness for C3 at the mode string "banana". -/
theorem C3_unrecognized_mode_amended_witness :
    refineKernelEntry "banana" [0, 1] [1, 0] = some ((xicorr [0, 1] [1, 0] : ℚ) : ℝ) ∧
    legacyParallelWrapper "banana" [1, 1] [1, 1] 0 = none := by
  obtain ⟨h1, h2⟩ := C3_unrecognized_mode_amended
  exact ⟨h1 "banana" [0, 1] [1, 0] (by decide),
    h2 "banana" [1, 1] [1, 1] 0 (by decide) (by decide)⟩

/-! ## GenePairPruner: `_get_pairs` (`src/samap/mapping.py`) -/

/-- Row maximum of a sparse matrix, as scipy's `.max(1)` computes it: the
maximum of the stored entries and the implicit zeros. -/
def rowMaxF {n : ℕ} (M : Fin n → Fin n → ℚ) (a : Fin n) : ℚ :=
  Finset.fold max 0 (M a) Finset.univ

/-- `_get_pairs(sams, gnnm, gns_dict)`: rows are divided by their maximum
(`su`, with zero maxima replaced by 1), feature weights are thresholded to
a 0/1 mask (`W[W<0]=0; W[W>0]=1`, so only strictly positive weights pass),
and the normalized graph is masked on both sides. -/
def get_pairs {n : ℕ} (M : Fin n → Fin n → ℚ) (w : Fin n → ℚ) : Fin n → Fin n → ℚ :=
  fun a b =>
    (M a b / (if rowMaxF M a = 0 then 1 else rowMaxF M a))
      * (if 0 < w b then 1 else 0) * (if 0 < w a then 1 else 0)

/-- C10: for a homology graph with nonnegative edge weights and any feature
weights, every entry of the pruned mapping graph `_get_pairs` returns is
either 0 or lies in the half-open interval (0, 1]: each row is divided by
its row maximum (zero maxima replaced by 1) before masking, so no retained
edge exceeds weight 1. -/
theorem C10_pruned_entries_unit_interval {n : ℕ} (M : Fin n → Fin n → ℚ)
    (w : Fin n → ℚ) (hM : ∀ a b, 0 ≤ M a b) (a b : Fin n) :
    get_pairs M w a b = 0 ∨ (0 < get_pairs M w a b ∧ get_pairs M w a b ≤ 1) := by
  rw [get_pairs]
  by_cases hwa : 0 < w a
  · by_cases hwb : 0 < w b
    · rw [if_pos hwa, if_pos hwb, mul_one, mul_one]
      by_cases hz : M a b = 0
      · left
        rw [hz, zero_div]
      · right
        have hpos : 0 < M a b := lt_of_le_of_ne (hM a b) (Ne.symm hz)
        have hle : M a b ≤ rowMaxF M a := by
          rw [rowMaxF]
          exact le_trans le_rfl (by
            rw [Finset.le_fold_max]
            exact Or.inr ⟨b, Finset.mem_univ b, le_rfl⟩)
        have hmax : 0 < rowMaxF M a := lt_of_lt_of_le hpos hle
        rw [if_neg hmax.ne']
        exact ⟨div_pos hpos hmax, (div_le_one hmax).2 hle⟩
    · left
      rw [if_neg hwb]
      ring
  · left
    rw [if_neg hwa]
    ring

/-- Witness for C10 on a concrete 2×2 graph. -/
theorem C10_pruned_entries_unit_interval_witness :
    get_pairs (fun a b : Fin 2 => if a = b then 0 else if a = 0 then 2 else 3)
        (fun _ : Fin 2 => 1) 0 1 = 0 ∨
      (0 < get_pairs (fun a b : Fin 2 => if a = b then 0 else if a = 0 then 2 else 3)
          (fun _ : Fin 2 => 1) 0 1 ∧
        get_pairs (fun a b : Fin 2 => if a = b then 0 else if a = 0 then 2 else 3)
          (fun _ : Fin 2 => 1) 0 1 ≤ 1) :=
  C10_pruned_entries_unit_interval _ _ (by decide) 0 1

/-! ## Top-k pruning: `_sparse_knn` (`src/SAMap.py`) -/

/-- Positions zeroed by `_sparse_knn` in one row: `idx[:-k]` for the
ascending argsort `idx` of the row's stored data.  Python slice semantics
make `idx[:-0]` equal to `idx[:0]` — the EMPTY slice — so `k = 0` zeroes
nothing. -/
def sparseKnnDrop (ds : List ℚ) (k : ℕ) : List ℕ :=
  if k = 0 then [] else (argsort ds).take (ds.length - k)

/-- One row (the `ind[i]:ind[i+1]` block) of `_sparse_knn(D, k)`: when the
row stores more than `k` entries (`if idx.size > k`), the smallest
`len − k` by value are set to 0 (to be removed by `eliminate_zeros()`);
otherwise the row is untouched. -/
def sparseKnnRow (ds : List ℚ) (k : ℕ) : List ℚ :=
  if k < ds.length then
    (List.range ds.length).map
      (fun i => if i ∈ sparseKnnDrop ds k then 0 else ds.getD i 0)
  else ds

/-- `_sparse_knn(D, k)`: row-wise top-k pruning of the whole matrix. -/
def sparseKnn (rows : List (List ℚ)) (k : ℕ) : List (List ℚ) :=
  rows.map (fun r => sparseKnnRow r k)

/-- Number of nonzero (stored after `eliminate_zeros`) entries of a row. -/
def nnzRow (ds : List ℚ) : ℕ := (ds.filter (fun v => decide (v ≠ 0))).length

theorem sparseKnnDrop_mem_lt {ds : List ℚ} {k i : ℕ} (h : i ∈ sparseKnnDrop ds k) :
    i < ds.length := by
  rw [sparseKnnDrop] at h
  split at h
  · simp at h
  · have hmem : i ∈ argsort ds := List.mem_of_mem_take h
    simpa using (argsort_perm ds).mem_iff.1 hmem

theorem sparseKnnDrop_nodup (ds : List ℚ) (k : ℕ) : (sparseKnnDrop ds k).Nodup := by
  rw [sparseKnnDrop]
  split
  · exact List.nodup_nil
  · exact (List.take_sublist _ _).nodup ((argsort_perm ds).nodup_iff.2 (List.nodup_range _))

theorem sparseKnnDrop_length {ds : List ℚ} {k : ℕ} (hk : 1 ≤ k) (hlt : k < ds.length) :
    (sparseKnnDrop ds k).length = ds.length - k := by
  rw [sparseKnnDrop, if_neg (by omega), List.length_take]
  have : (argsort ds).length = ds.length := by simp [argsort]
  omega

/-- After pruning, a row retains at most `k` nonzero entries (for `k ≥ 1`). -/
theorem sparseKnnRow_nnz_le {ds : List ℚ} {k : ℕ} (hk : 1 ≤ k) :
    nnzRow (sparseKnnRow ds k) ≤ k := by
  rw [sparseKnnRow]
  split
  case isTrue hlt =>
    rw [nnzRow, ← List.countP_eq_length_filter, List.countP_map]
    have hmono : (List.range ds.length).countP
        ((fun v => decide (v ≠ 0)) ∘
          (fun i => if i ∈ sparseKnnDrop ds k then 0 else ds.getD i 0))
        ≤ (List.range ds.length).countP
          (fun i => !(decide (i ∈ sparseKnnDrop ds k))) := by
      apply List.countP_mono_left
      intro i _ hp
      simp only [Function.comp] at hp
      by_cases hmem : i ∈ sparseKnnDrop ds k
      · simp [hmem] at hp
      · simp [hmem]
    refine le_trans hmono ?_
    have hperm : ((List.range ds.length).filter
        (fun i => decide (i ∈ sparseKnnDrop ds k))).Perm (sparseKnnDrop ds k) := by
      apply List.perm_of_nodup_nodup_toFinset_eq
      · exact (List.nodup_range _).filter _
      · exact sparseKnnDrop_nodup ds k
      · ext x
        simp only [List.mem_toFinset, List.mem_filter, List.mem_range, decide_eq_true_eq]
        constructor
        · rintro ⟨-, h⟩
          exact h
        · intro h
          exact ⟨sparseKnnDrop_mem_lt h, h⟩
    have hmemcount : (List.range ds.length).countP
        (fun i => decide (i ∈ sparseKnnDrop ds k)) = ds.length - k := by
      rw [List.countP_eq_length_filter, hperm.length_eq, sparseKnnDrop_length hk ‹k < ds.length›]
    have hsplit := (List.range ds.length).length_eq_countP_add_countP
      (fun i => decide (i ∈ sparseKnnDrop ds k))
    have hcongr : (List.range ds.length).countP
        (fun a => decide ¬((fun i => decide (i ∈ sparseKnnDrop ds k)) a = true))
        = (List.range ds.length).countP (fun i => !(decide (i ∈ sparseKnnDrop ds k))) := by
      apply List.countP_congr
      intro a _
      by_cases hmem : a ∈ sparseKnnDrop ds k <;> simp [hmem]
    rw [hcongr, hmemcount, List.length_range] at hsplit
    omega
  case isFalse hge =>
    have h1 : nnzRow ds ≤ ds.length := List.length_filter_le _ ds
    omega

/-- Every entry the pruning keeps dominates every entry it zeroes. -/
theorem sparseKnn_retained_ge_pruned {ds : List ℚ} {k i j : ℕ} (hk : 1 ≤ k)
    (hi : i < ds.length) (hinot : i ∉ sparseKnnDrop ds k)
    (hj : j ∈ sparseKnnDrop ds k) : ds.getD j 0 ≤ ds.getD i 0 := by
  have hk0 : ¬ k = 0 := by omega
  rw [sparseKnnDrop, if_neg hk0] at hinot hj
  have hsorted : (argsort ds).Pairwise (idxLe ds) :=
    List.sorted_insertionSort (idxLe ds) (List.range ds.length)
  have hsplit : (argsort ds).take (ds.length - k) ++ (argsort ds).drop (ds.length - k)
      = argsort ds := List.take_append_drop _ _
  have hpw : ∀ a ∈ (argsort ds).take (ds.length - k),
      ∀ b ∈ (argsort ds).drop (ds.length - k), idxLe ds a b := by
    have hs2 : ((argsort ds).take (ds.length - k)
        ++ (argsort ds).drop (ds.length - k)).Pairwise (idxLe ds) := by
      rw [hsplit]
      exact hsorted
    exact (List.pairwise_append.1 hs2).2.2
  have himem : i ∈ (argsort ds).drop (ds.length - k) := by
    have hall : i ∈ argsort ds := by
      rw [(argsort_perm ds).mem_iff]
      simpa using hi
    rcases List.mem_append.1 (by rw [hsplit]; exact hall) with h | h
    · exact absurd h hinot
    · exact h
  rcases hpw j hj i himem with h | ⟨h, _⟩
  · exact h.le
  · exact h.le

/-- A kept position carries its original value; a dropped one carries 0. -/
theorem sparseKnnRow_getD {ds : List ℚ} {k i : ℕ} (hlt : k < ds.length)
    (hi : i < ds.length) :
    (sparseKnnRow ds k).getD i 0
      = if i ∈ sparseKnnDrop ds k then 0 else ds.getD i 0 := by
  rw [sparseKnnRow, if_pos hlt]
  have hlen : i < ((List.range ds.length).map
      (fun i => if i ∈ sparseKnnDrop ds k then 0 else ds.getD i 0)).length := by
    simpa using hi
  rw [List.getD_eq_getElem _ 0 hlen]
  simp

/-- C6 (counterexample): Python's `idx[:-k]` slice is empty for `k = 0`, so
`_sparse_knn(D, 0)` leaves every row untouched — with D = [[5]] the result
still has a row with 1 > 0 nonzero entries, violating the "no row has more
than k nonzero entries" contract at k = 0. -/
theorem C6_counterexample :
    sparseKnn [[5]] 0 = [[5]] ∧ ¬ nnzRow (sparseKnnRow [5] 0) ≤ 0 := by
  constructor
  · decide
  · decide

/-- C6 (amended): for any sparse matrix and any `k ≥ 1`, after `_sparse_knn`
pruning no row has more than `k` nonzero entries; the zeroed positions of a
row are exactly `sparseKnnDrop` (the `len − k` smallest stored values), kept
positions keep their value, and every kept entry is ≥ every pruned entry of
that row.  For `k = 0` the guarantee fails (see the counterexample). -/
theorem C6_sparse_knn_amended (rows : List (List ℚ)) (k : ℕ) (hk : 1 ≤ k) :
    (∀ r ∈ sparseKnn rows k, nnzRow r ≤ k) ∧
    (∀ ds ∈ rows, ∀ i j : ℕ, i < ds.length → i ∉ sparseKnnDrop ds k →
      j ∈ sparseKnnDrop ds k → ds.getD j 0 ≤ ds.getD i 0) ∧
    (∀ ds ∈ rows, k < ds.length → ∀ i : ℕ, i < ds.length →
      (sparseKnnRow ds k).getD i 0
        = if i ∈ sparseKnnDrop ds k then 0 else ds.getD i 0) := by
  refine ⟨?_, ?_, ?_⟩
  · intro r hr
    simp only [sparseKnn, List.mem_map] at hr
    obtain ⟨ds, _, rfl⟩ := hr
    exact sparseKnnRow_nnz_le hk
  · intro ds _ i j hi hinot hj
    exact sparseKnn_retained_ge_pruned hk hi hinot hj
  · intro ds _ hlt i hi
    exact sparseKnnRow_getD hlt hi

/-- Witness for C6 on the single-row matrix [[3,1,2]] with k = 1: the pruned
row keeps only the maximum (position 0, value 3) and the dropped position 1
(value 1) is dominated by it. -/
theorem C6_sparse_knn_amended_witness :
    nnzRow (sparseKnnRow [3, 1, 2] 1) ≤ 1 ∧
    ([3, 1, 2] : List ℚ).getD 1 0 ≤ ([3, 1, 2] : List ℚ).getD 0 0 := by
  obtain ⟨h1, h2, _⟩ := C6_sparse_knn_amended [[3, 1, 2]] 1 le_rfl
  refine ⟨?_, ?_⟩
  · exact h1 (sparseKnnRow [3, 1, 2] 1) (by simp [sparseKnn])
  · exact h2 [3, 1, 2] (by simp) 0 1 (by norm_num) (by decide) (by decide)

/-! ## ManifoldStitcher: `_tanh_scale`, `_united_proj`, `_pairwise_knn` -/

/-- `_tanh_scale(x, scale, center)` from `src/samap/mapping.py`:
`center + (1 - center) * np.tanh(scale * (x - center))`. -/
noncomputable def tanh_scale (scale center x : ℝ) : ℝ :=
  center + (1 - center) * Real.tanh (scale * (x - center))

theorem tanh_lt_one_aux (t : ℝ) : Real.tanh t < 1 := by
  rw [Real.tanh_eq_sinh_div_cosh]
  rw [div_lt_one (Real.cosh_pos t)]
  exact Real.sinh_lt_cosh t

theorem neg_one_lt_tanh_aux (t : ℝ) : -1 < Real.tanh t := by
  rw [Real.tanh_eq_sinh_div_cosh]
  rw [lt_div_iff₀ (Real.cosh_pos t)]
  have h := Real.sinh_lt_cosh (-t)
  rw [Real.sinh_neg, Real.cosh_neg] at h
  linarith

/-- For a center in [1/2, 1] the tanh contrast transform stays in [0, 1]
regardless of its argument. -/
theorem tanh_scale_mem_unit {s c x : ℝ} (h1 : 1/2 ≤ c) (h2 : c ≤ 1) :
    0 ≤ tanh_scale s c x ∧ tanh_scale s c x ≤ 1 := by
  have ht1 : Real.tanh (s * (x - c)) < 1 := tanh_lt_one_aux _
  have ht2 : -1 < Real.tanh (s * (x - c)) := neg_one_lt_tanh_aux _
  have hc : (0 : ℝ) ≤ 1 - c := by linarith
  rw [tanh_scale]
  constructor
  · nlinarith [mul_le_mul_of_nonneg_left ht2.le hc]
  · nlinarith [mul_le_mul_of_nonneg_left ht1.le hc]

/-- Modelled from the spec: the external hnswlib index "returns, per query
point, the k nearest reference points" by the chosen metric.  Given the
row of distances from one query to every reference point, the model
selects the k smallest distances (ties broken by reference index — the
library leaves the tie order unspecified). -/
def knnSelect (dists : List ℚ) (k : ℕ) : List ℕ :=
  (List.insertionSort (idxLe dists) (List.range dists.length)).take k

/-- One query row of `_united_proj(wpca1, wpca2, k)` with the default cosine
metric, given the hnswlib cosine-distance row: the source computes
`dist1 = 1 - dist1`, clips below at 1e-3 (`dist1[dist1 < 1e-3] = 1e-3`),
divides by the row maximum over the k selected neighbors
(`dist1/dist1.max(1)`), applies `_tanh_scale(·, scale=10, center=0.7)`,
and scatters the values into the sparse row at the selected indices
(`knn1v2[x1, idx1] = Sim1`); unselected columns stay 0. -/
noncomputable def unitedProjRow (dists : List ℚ) (k : ℕ) : ℕ → ℝ := fun c =>
  if c ∈ knnSelect dists k then
    tanh_scale 10 (7/10)
      (((max (1 - dists.getD c 0) (1/1000)) /
        (((knnSelect dists k).map (fun i => max (1 - dists.getD i 0) (1/1000))).foldr max 0)
        : ℚ))
  else 0

/-- Decompose a global cell index into (species index, within-species
index) for consecutive blocks of sizes `szs` — the model of
`species_indexer` in `_pairwise_knn`. -/
def speciesOf : List ℕ → ℕ → ℕ × ℕ
  | [], p => (0, p)
  | s :: t, p =>
      if p < s then (0, p)
      else ((speciesOf t (p - s)).1 + 1, (speciesOf t (p - s)).2)

/-- `_pairwise_knn(wpca, sams, k, pairwise=True)`: for every ORDERED pair of
species (i, j) — including i = j, since the inner loop has no `i != j`
guard — `_united_proj` runs with species i as query and species j as
reference, and the blocks land in disjoint regions of one global
cell-by-cell matrix.  `_mapper` installs the result as
`obsp["connectivities"]` without zeroing the diagonal.  `dblocks i j`
supplies the hnswlib distance rows of block (i, j) (external library,
modelled from the spec). -/
noncomputable def pairwise_knn (szs : List ℕ) (dblocks : ℕ → ℕ → List (List ℚ))
    (k : ℕ) : ℕ → ℕ → ℝ := fun p q =>
  unitedProjRow
    ((dblocks (speciesOf szs p).1 (speciesOf szs q).1).getD (speciesOf szs p).2 [])
    k (speciesOf szs q).2

/-! ## Claim C4 -/

/-- C4 (counterexample): the stitched graph's diagonal is NOT zero.  With two
species of one cell each and k = 1, the (i = j) self-query block makes the
cell its own nearest neighbor at cosine distance 0; after the 1−d, clip,
row-normalize and tanh-rescale steps the installed diagonal entry is
`_tanh_scale(1, 10, 0.7) = 0.7 + 0.3·tanh 3 > 0`. -/
theorem C4_counterexample :
    pairwise_knn [1, 1] (fun i j => [[if i = j then 0 else 1]]) 1 0 0
      = tanh_scale 10 (7/10) 1 ∧
    pairwise_knn [1, 1] (fun i j => [[if i = j then 0 else 1]]) 1 0 0 ≠ 0 := by
  have hsp : speciesOf [1, 1] 0 = (0, 0) := by decide
  have hval : pairwise_knn [1, 1] (fun i j => [[if i = j then 0 else 1]]) 1 0 0
      = tanh_scale 10 (7/10) 1 := by
    rw [pairwise_knn, hsp]
    show unitedProjRow [0] 1 0 = _
    rw [unitedProjRow, if_pos (show (0 : ℕ) ∈ knnSelect [0] 1 from by decide)]
    rw [show knnSelect [0] 1 = [0] from by decide]
    norm_num
  refine ⟨hval, ?_⟩
  rw [hval, tanh_scale]
  have := neg_one_lt_tanh_aux (10 * ((1 : ℝ) - 7/10))
  intro h
  nlinarith

/-- C4 (amended): every stored edge weight of the cross-species neighbor
graph produced by the stitching step lies in [0, 1] (unstored entries are
0), for every input; but the diagonal need not be zero — in pairwise mode
each species is also queried against itself and `_mapper` installs the
graph without `setdiag(0)`, so a cell can carry a positive self-edge (see
the counterexample). -/
theorem C4_stitched_weights_amended (szs : List ℕ)
    (dblocks : ℕ → ℕ → List (List ℚ)) (k : ℕ) (p q : ℕ) :
    0 ≤ pairwise_knn szs dblocks k p q ∧ pairwise_knn szs dblocks k p q ≤ 1 := by
  rw [pairwise_knn, unitedProjRow]
  split
  · exact tanh_scale_mem_unit (by norm_num) (by norm_num)
  · norm_num

/-! ## HomologyGraphBuilder: `_calculate_blast_graph` -/

/-- Elementwise symmetrization `(gnnm + gnnm.T) / 2`. -/
def symAvg (M : ℕ → ℕ → ℚ) : ℕ → ℕ → ℚ := fun a b => (M a b + M b a) / 2

/-- `gnnm.data[:] = 1`: indicator of the stored (nonzero) entries. -/
def binarized (M : ℕ → ℕ → ℚ) : ℕ → ℕ → ℚ := fun a b => if M a b ≠ 0 then 1 else 0

/-- One species pair of `_calculate_blast_graph`: `gnnms = (gnnm+gnnm.T)/2`,
and with `reciprocate` the elementwise mask
`gnnms.multiply(gnnm_bin).multiply(gnnm_bin.T)` so only mutually supported
edges survive. -/
def pairBlastGraph (M : ℕ → ℕ → ℚ) (recip : Bool) : ℕ → ℕ → ℚ :=
  if recip then fun a b => symAvg M a b * binarized M a b * binarized M b a
  else symAvg M

/-- Scattering a pair block into the global gene order through the injection
`e` (the gene-name indexer); the final `coo_matrix` sums duplicates. -/
def scatterSum (m : ℕ) (e : ℕ → ℕ) (G : ℕ → ℕ → ℚ) : ℕ → ℕ → ℚ := fun a b =>
  Finset.sum (Finset.range m) fun x =>
    Finset.sum (Finset.range m) fun y => if e x = a ∧ e y = b then G x y else 0

/-- `_calculate_blast_graph(ids, f_maps, reciprocate)`: the global homology
graph accumulates every species-pair block — each given by its local size,
its gene-index map into the global order and its raw forward+reverse score
matrix `gnnm1 + gnnm2` — after per-pair symmetrization (and optional
reciprocal masking). -/
def calculate_blast_graph (ps : List (ℕ × (ℕ → ℕ) × (ℕ → ℕ → ℚ))) (recip : Bool) :
    ℕ → ℕ → ℚ := fun a b =>
  (ps.map (fun t => scatterSum t.1 t.2.1 (pairBlastGraph t.2.2 recip) a b)).sum

theorem pairBlastGraph_symm (M : ℕ → ℕ → ℚ) (recip : Bool) (a b : ℕ) :
    pairBlastGraph M recip a b = pairBlastGraph M recip b a := by
  cases recip
  · simp only [pairBlastGraph, Bool.false_eq_true, if_false, symAvg]
    ring
  · simp only [pairBlastGraph, if_true, symAvg]
    ring

theorem scatterSum_symm {m : ℕ} {e : ℕ → ℕ} {G : ℕ → ℕ → ℚ}
    (hG : ∀ x y, G x y = G y x) (a b : ℕ) :
    scatterSum m e G a b = scatterSum m e G b a := by
  rw [scatterSum, scatterSum, Finset.sum_comm]
  refine Finset.sum_congr rfl (fun y _ => Finset.sum_congr rfl (fun x _ => ?_))
  by_cases h : e x = a ∧ e y = b
  · rw [if_pos h, if_pos ⟨h.2, h.1⟩, hG]
  · rw [if_neg h, if_neg (fun hc => h ⟨hc.2, hc.1⟩)]

theorem calculate_blast_graph_symm (ps : List (ℕ × (ℕ → ℕ) × (ℕ → ℕ → ℚ)))
    (recip : Bool) (a b : ℕ) :
    calculate_blast_graph ps recip a b = calculate_blast_graph ps recip b a := by
  rw [calculate_blast_graph, calculate_blast_graph]
  congr 1
  apply List.map_congr_left
  intro t _
  exact scatterSum_symm (pairBlastGraph_symm t.2.2 recip) a b

/-! ## CorrelationRefiner: `_refine_corr` chunk stitching -/

/-- Sequential writes `gnnm3[x, y] = v` into an initially empty lil matrix;
later writes overwrite earlier ones at the same coordinate. -/
def applyWrites (ws : List (ℕ × ℕ × ℚ)) (M0 : ℕ → ℕ → ℚ) : ℕ → ℕ → ℚ :=
  ws.foldl (fun M w => fun a b => if a = w.1 ∧ b = w.2.1 then w.2.2 else M a b) M0

/-- The final mirroring `x, y = gnnm3.nonzero(); gnnm3[y, x] = gnnm3[x, y]`:
a position receives the transposed entry whenever that is nonzero (i.e. it
is the target of an assignment), keeping its own value otherwise. -/
def mirrorNonzero (M : ℕ → ℕ → ℚ) : ℕ → ℕ → ℚ := fun a b =>
  if M b a ≠ 0 then M b a else M a b

/-- The writes contributed by one chunk of `_refine_corr`: for the unique
sorted nonzero index pairs `l1 ≤ l2` of the chunk's sub-result
(`I.append(np.unique(np.sort(...)))`), the value `sub[l1, l2]` is written
at the global coordinates `(g l1, g l2)`, where `g` is the chunk's sorted
global index list `ixs[i]` (hence monotone). -/
def chunkWrites (m : ℕ) (g : ℕ → ℕ) (sub : ℕ → ℕ → ℚ) : List (ℕ × ℕ × ℚ) :=
  (((List.range m).product (List.range m)).filter
    (fun p => decide (p.1 ≤ p.2) &&
      (decide (sub p.1 p.2 ≠ 0) || decide (sub p.2 p.1 ≠ 0)))).map
    (fun p => (g p.1, g p.2, sub p.1 p.2))

/-- `_refine_corr` stitch-back: all chunk writes applied in order to an
empty matrix, then mirrored. -/
def refineStitch (chunks : List (ℕ × (ℕ → ℕ) × (ℕ → ℕ → ℚ))) : ℕ → ℕ → ℚ :=
  mirrorNonzero
    (applyWrites ((chunks.map (fun t => chunkWrites t.1 t.2.1 t.2.2)).flatten)
      (fun _ _ => 0))

theorem applyWrites_upper : ∀ {ws : List (ℕ × ℕ × ℚ)}, (∀ w ∈ ws, w.1 ≤ w.2.1) →
    ∀ (M0 : ℕ → ℕ → ℚ), (∀ a b, b < a → M0 a b = 0) →
    ∀ a b, b < a → applyWrites ws M0 a b = 0
  | [], _, M0, h, a, b, hab => h a b hab
  | w :: t, hw, M0, h, a, b, hab => by
    rw [applyWrites, List.foldl_cons]
    refine applyWrites_upper (fun v hv => hw v (List.mem_cons_of_mem _ hv)) _ ?_ a b hab
    intro x y hxy
    by_cases hc : x = w.1 ∧ y = w.2.1
    · exfalso
      have := hw w (List.mem_cons_self _ _)
      omega
    · simpa [hc] using h x y hxy

theorem mirrorNonzero_symm {M : ℕ → ℕ → ℚ} (h : ∀ a b, b < a → M a b = 0) (a b : ℕ) :
    mirrorNonzero M a b = mirrorNonzero M b a := by
  rcases lt_trichotomy a b with hab | rfl | hab
  · have h0 : M b a = 0 := h b a hab
    rw [mirrorNonzero, mirrorNonzero, h0]
    by_cases hM : M a b = 0 <;> simp [hM]
  · rfl
  · have h0 : M a b = 0 := h a b hab
    rw [mirrorNonzero, mirrorNonzero, h0]
    by_cases hM : M b a = 0 <;> simp [hM]

theorem chunkWrites_upper {m : ℕ} {g : ℕ → ℕ} (hg : Monotone g) (sub : ℕ → ℕ → ℚ) :
    ∀ w ∈ chunkWrites m g sub, w.1 ≤ w.2.1 := by
  intro w hw
  simp only [chunkWrites, List.mem_map, List.mem_filter] at hw
  obtain ⟨p, ⟨_, hp⟩, rfl⟩ := hw
  have hple : p.1 ≤ p.2 := by
    simp only [Bool.and_eq_true, Bool.or_eq_true, decide_eq_true_eq] at hp
    exact hp.1
  exact hg hple

/-- C5: for all gene pairs (a, b), both the homology graph built by
`_calculate_blast_graph` — with or without reciprocal masking — and the
refined homology graph stitched back from (monotonically indexed) gene
chunks by `_refine_corr` are symmetric: weight(a, b) = weight(b, a). -/
theorem C5_homology_symmetry (ps : List (ℕ × (ℕ → ℕ) × (ℕ → ℕ → ℚ))) (recip : Bool)
    (chunks : List (ℕ × (ℕ → ℕ) × (ℕ → ℕ → ℚ)))
    (hmono : ∀ c ∈ chunks, Monotone c.2.1) :
    (∀ a b, calculate_blast_graph ps recip a b = calculate_blast_graph ps recip b a) ∧
    (∀ a b, refineStitch chunks a b = refineStitch chunks b a) := by
  constructor
  · exact fun a b => calculate_blast_graph_symm ps recip a b
  · intro a b
    apply mirrorNonzero_symm
    intro x y hxy
    refine applyWrites_upper ?_ _ (fun _ _ _ => rfl) x y hxy
    intro w hw
    simp only [List.mem_flatten, List.mem_map] at hw
    obtain ⟨l, ⟨c, hc, rfl⟩, hwl⟩ := hw
    exact chunkWrites_upper (hmono c hc) _ w hwl

/-- Witness for C5: a concrete one-pair blast input with reciprocal masking
and a concrete single identity-indexed chunk, checked at the gene pair
(0, 1). -/
theorem C5_homology_symmetry_witness :
    calculate_blast_graph [(2, id, fun x y => if x = 0 ∧ y = 1 then 3 else 0)] true 0 1
      = calculate_blast_graph [(2, id, fun x y => if x = 0 ∧ y = 1 then 3 else 0)] true 1 0 ∧
    refineStitch [(2, id, fun x y => if x = y then 0 else 5)] 0 1
      = refineStitch [(2, id, fun x y => if x = y then 0 else 5)] 1 0 := by
  have h := C5_homology_symmetry [(2, id, fun x y => if x = 0 ∧ y = 1 then 3 else 0)] true
    [(2, id, fun x y => if x = y then 0 else 5)]
    (by
      intro c hc
      simp only [List.mem_singleton] at hc
      subst hc
      exact monotone_id)
  exact ⟨h.1 0 1, h.2 0 1⟩

/-! ## IterationController: `_Samap_Iter.run` and `_avg_as`

The loop state of `_Samap_Iter` is embedded directly; the stitched SAM
object is reduced to the fields the loop reads: species labels, the
installed connectivity graph and the `.uns` dictionary.  `_mapper` builds
a fresh concatenated SAM (whose `.uns` starts empty) and the loop then
executes `self.samap.adata.uns['mapping_k'] = K` — note the lowercase
`k` — while `_avg_as` reads `s.adata.uns['mapping_K']` with an uppercase
`K`. -/

structure SamModel where
  nsp : ℕ
  ncells : ℕ
  species : ℕ → ℕ
  nnm : ℕ → ℕ → ℚ
  uns : List (String × ℚ)

/-- Cells belonging to species `i` (`x == xu[i]` in `_avg_as`). -/
def cellsOf (s : SamModel) (i : ℕ) : List ℕ :=
  (List.range s.ncells).filter (fun c => s.species c == i)

/-- One off-diagonal entry of the `_avg_as` diagnostic matrix: the mean over
species-i cells of the summed cross-species edge weight into species-j
cells, divided by the neighbor count `K`. -/
def scoreEntry (s : SamModel) (K : ℚ) (i j : ℕ) : ℚ :=
  if i ≠ j then
    ((cellsOf s i).map (fun c => ((cellsOf s j).map (fun d => s.nnm c d)).sum)).sum
      / ((cellsOf s i).length : ℚ) / K
  else 0

/-- `_avg_as(s)` from `src/samap/mapping.py`: every off-diagonal entry
divides by `s.adata.uns['mapping_K']`; a missing key raises `KeyError`
(modelled by `none`).  With fewer than two species the `i != j` body never
runs and the zero matrix is returned. -/
def avg_as (s : SamModel) : Option (ℕ → ℕ → ℚ) :=
  if 2 ≤ s.nsp then (s.uns.lookup "mapping_K").map (fun K => scoreEntry s K)
  else some (fun _ _ => 0)

/-- `self.samap.adata.uns['mapping_k'] = K` (line 620 of
`src/samap/mapping.py`): the assignment the loop performs right after
stitching — with a LOWERCASE k. -/
def setMappingK (K : ℚ) (s : SamModel) : SamModel :=
  { s with uns := ("mapping_k", K) :: s.uns }

/-- The collaborator functions `_Samap_Iter.run` composes, abstracted over
the homology-graph type `G`: pruning (`_get_pairs`), stitching
(`_mapper`, producing a fresh SAM whose `.uns` is empty), and refinement
(`refine_homology_graph`, reading the current stitched SAM). -/
structure IterFuns (G : Type) where
  getPairs : G → G
  mapper : G → SamModel
  refine : SamModel → G

/-- The mutable attributes of `_Samap_Iter` that `run` touches. -/
structure IterSt (G : Type) where
  gnnmu : G
  iter : ℕ
  corrHist : List G
  prunedHist : List G
  nnmHist : List (ℕ → ℕ → ℚ)
  samap : Option SamModel
  finalSam : Option SamModel
  aborted : Bool

/-- One-for-one embedding of the body of `for i in range(NUMITERS)` in
`_Samap_Iter.run`, with `remaining` the structural fuel `NUMITERS − i`:

* if `self.iter > 0 and i == 0`, refine first (using the previous `samap`);
* prune (`gnnm2 = _get_pairs(...)`) and record it;
* stitch (`sam4 = _mapper(...)`), set `uns['mapping_k'] = K`, install
  `samap`, record the connectivity graph;
* `print(_avg_as(sam4))` — a `KeyError` (`avg_as = none`) aborts the run
  with all mutations so far kept;
* `self.iter += 1`; if `i < NUMITERS − 1`, refine from `sam4` and loop.

After the loop, `self.final_sam = sam4`. -/
def runAux {G : Type} (F : IterFuns G) (K : ℚ) (total : ℕ) :
    ℕ → ℕ → IterSt G → IterSt G
  | 0, _, st => { st with finalSam := st.samap }
  | remaining + 1, i, st =>
    let st0 :=
      if 0 < st.iter ∧ i = 0 then
        match st.samap with
        | some s =>
          { st with gnnmu := F.refine s, corrHist := st.corrHist ++ [F.refine s] }
        | none => st
      else st
    let g2 := F.getPairs st0.gnnmu
    let s4 := setMappingK K (F.mapper g2)
    let st1 := { st0 with
      prunedHist := st0.prunedHist ++ [g2]
      samap := some s4
      nnmHist := st0.nnmHist ++ [s4.nnm] }
    match avg_as s4 with
    | none => { st1 with aborted := true }
    | some _ =>
      let st2 := { st1 with iter := st1.iter + 1 }
      let st3 :=
        if i < total - 1 then
          { st2 with gnnmu := F.refine s4, corrHist := st2.corrHist ++ [F.refine s4] }
        else st2
      runAux F K total remaining (i + 1) st3

/-- `_Samap_Iter.run(NUMITERS, K, …)` started from the current state. -/
def runIter {G : Type} (F : IterFuns G) (K : ℚ) (NUMITERS : ℕ) (st : IterSt G) :
    IterSt G :=
  runAux F K NUMITERS NUMITERS 0 st

/-- The state of a freshly constructed `_Samap_Iter` engine: `iter = 0`,
empty histories, no stitched object yet, initial graph `g0`. -/
def freshIter {G : Type} (g0 : G) : IterSt G :=
  ⟨g0, 0, [], [], [], none, none, false⟩

/-- What a single fresh iteration produces, as a function of the prune and
stitch collaborators only: prune once, stitch, record; if the diagnostic
evaluates, bump `iter` and finish, else abort. -/
def runOne {G : Type} (gp : G → G) (mp : G → SamModel) (K : ℚ) (g0 : G) :
    IterSt G :=
  let g2 := gp g0
  let s4 := setMappingK K (mp g2)
  match avg_as s4 with
  | none => ⟨g0, 0, [], [g2], [s4.nnm], some s4, none, true⟩
  | some _ => ⟨g0, 1, [], [g2], [s4.nnm], some s4, some s4, false⟩

lemma lookup_mapping_K_setMappingK (K : ℚ) (s : SamModel) (h : s.uns = []) :
    ((setMappingK K s).uns.lookup "mapping_K") = none := by
  simp [setMappingK, h, List.lookup]

lemma avg_as_setMappingK_none (K : ℚ) (s : SamModel) (h : s.uns = [])
    (hsp : 2 ≤ s.nsp) : avg_as (setMappingK K s) = none := by
  rw [avg_as, if_pos (show 2 ≤ (setMappingK K s).nsp from hsp),
    lookup_mapping_K_setMappingK K s h]
  rfl

lemma runIter_one_eq {G : Type} (F : IterFuns G) (K : ℚ) (g0 : G) :
    runIter F K 1 (freshIter g0) = runOne F.getPairs F.mapper K g0 := by
  rw [runIter, runAux, runOne]
  rw [if_neg (show ¬(0 < (freshIter g0).iter ∧ 0 = 0) from by simp [freshIter])]
  cases h : avg_as (setMappingK K (F.mapper (F.getPairs (freshIter g0).gnnmu))) with
  | none => simp [freshIter] at h ⊢; rw [h]
  | some a =>
    simp only [freshIter] at h ⊢
    rw [h]
    simp [runAux, freshIter]

/-- C2: the claim says the diagnostic score matrix computation succeeds on
the state the loop itself produced.  It does not: `_mapper` returns a fresh
concatenated SAM whose `.uns` is empty, the loop stores the neighbor count
under the LOWERCASE key `'mapping_k'` (`run`, line 620), and `_avg_as`
reads the UPPERCASE key `s.adata.uns['mapping_K']` (line 647).  Whenever
there are at least two species the `i != j` branch executes, the lookup
misses, and `_avg_as` raises `KeyError` (modelled by `none`); consequently
every run of the loop aborts at the diagnostic print of its first
iteration. -/
theorem C2_avg_as_keyerror {G : Type} (F : IterFuns G) (K : ℚ)
    (NUMITERS : ℕ) (g0 : G) (hN : 0 < NUMITERS)
    (hfresh : ∀ g, (F.mapper g).uns = [])
    (hsp : ∀ g, 2 ≤ (F.mapper g).nsp) :
    avg_as (setMappingK K (F.mapper (F.getPairs g0))) = none ∧
    (runIter F K NUMITERS (freshIter g0)).aborted = true := by
  have hnone : avg_as (setMappingK K (F.mapper (F.getPairs g0))) = none :=
    avg_as_setMappingK_none K _ (hfresh _) (hsp _)
  refine ⟨hnone, ?_⟩
  obtain ⟨m, rfl⟩ : ∃ m, NUMITERS = m + 1 :=
    ⟨NUMITERS - 1, (Nat.succ_pred_eq_of_pos hN).symm⟩
  rw [runIter, runAux]
  rw [if_neg (show ¬(0 < (freshIter g0).iter ∧ 0 = 0) from by simp [freshIter])]
  simp only [freshIter] at hnone ⊢
  rw [hnone]

/-- Concrete engine for exercising the iteration model: two species with
one cell each, stitching any graph into a fresh (empty-`uns`) SAM. -/
def C2F : IterFuns ℚ :=
  ⟨id, fun g => ⟨2, 2, fun c => c % 2, fun _ _ => g, []⟩, fun _ => 0⟩

theorem C2_avg_as_keyerror_witness :
    avg_as (setMappingK 20 (C2F.mapper (C2F.getPairs 0))) = none ∧
    (runIter C2F 20 1 (freshIter (0 : ℚ))).aborted = true :=
  C2_avg_as_keyerror C2F 20 1 0 (by decide) (fun _ => rfl)
    (fun _ => by norm_num [C2F])

/-- C9: on a fresh engine (`self.iter = 0`) with `NUMITERS = 1`, neither
refinement site of `_Samap_Iter.run` fires — the entry refinement requires
`self.iter > 0` and the trailing refinement requires `i < NUMITERS - 1`,
i.e. `0 < 0`.  The recorded connectivity graph is therefore exactly the one
obtained by pruning the initial homology graph once (`_get_pairs`) and
stitching directly (`_mapper`), and the whole resulting state is unchanged
if the refinement routine is swapped for any other: no correlation history
is appended and no refinement output is ever consumed. -/
theorem C9_zero_refinement {G : Type} (F Fr : IterFuns G) (K : ℚ) (g0 : G)
    (hg : F.getPairs = Fr.getPairs) (hm : F.mapper = Fr.mapper) :
    (runIter F K 1 (freshIter g0)).nnmHist =
      [(F.mapper (F.getPairs g0)).nnm] ∧
    (runIter F K 1 (freshIter g0)).corrHist = [] ∧
    runIter F K 1 (freshIter g0) = runIter Fr K 1 (freshIter g0) := by
  have h1 := runIter_one_eq F K g0
  have h2 := runIter_one_eq Fr K g0
  refine ⟨?_, ?_, ?_⟩
  · rw [h1, runOne]
    cases h : avg_as (setMappingK K (F.mapper (F.getPairs g0))) with
    | none => rfl
    | some a => rfl
  · rw [h1, runOne]
    cases h : avg_as (setMappingK K (F.mapper (F.getPairs g0))) with
    | none => rfl
    | some a => rfl
  · rw [h1, h2, hg, hm]

/-- Concrete engines for the zero-refinement run: identical prune and
stitch collaborators, visibly different refinement routines. -/
def C9F1 : IterFuns ℚ :=
  ⟨id, fun g => ⟨2, 2, fun c => c % 2, fun _ _ => g, []⟩, fun _ => 37⟩

def C9F2 : IterFuns ℚ :=
  ⟨id, fun g => ⟨2, 2, fun c => c % 2, fun _ _ => g, []⟩,
    fun s => s.nnm 0 0 + 5⟩

theorem C9_zero_refinement_witness :
    (runIter C9F1 20 1 (freshIter (1/2 : ℚ))).nnmHist =
      [(C9F1.mapper (C9F1.getPairs (1/2))).nnm] ∧
    (runIter C9F1 20 1 (freshIter (1/2 : ℚ))).corrHist = [] ∧
    runIter C9F1 20 1 (freshIter (1/2 : ℚ)) =
      runIter C9F2 20 1 (freshIter (1/2 : ℚ)) :=
  C9_zero_refinement C9F1 C9F2 20 (1/2) rfl rfl

end SamapModel
